import Mathlib

/-!
Verification of the core of `align_videos_by_soundtrack/align.py`.

The development shallowly embeds the three algorithmic components of the
program:

* `mk_freq_trans_summary` — the landmark builder `_mk_freq_trans_summary`
  (windowing, per-box peak capping, frequency→times summary);
* `find_delay` — the histogram-voting delay estimator `_find_delay`;
* `SyncDetector.alignPass` / `SyncDetector.align` — the two-pass
  orchestrator `SyncDetector._align` / `SyncDetector.align`
  (hint re-centering, pad/trim normalization, hint refinement).

Modelling conventions:

* Python dicts (`defaultdict(list)`, `defaultdict(int)`, the known-delay
  map) are association lists in insertion order; `alUpd`/`alInc` mirror
  `d[k].append(v)` and `d[k] += 1`, `alFind`/`alGet` mirror lookups.
  Python dict keys are unique, so well-formedness hypotheses state key
  `Nodup` where a theorem needs it.
* Python floats are modelled as `ℚ`; audio samples (integer wav data) as
  `ℤ`; `int(x)` is `pyInt` (truncation toward zero).
* `numpy`'s FFT is an external library: the magnitude spectrum
  `np.abs(np.fft.fft(...))` is an explicit parameter
  `fftMag : List ℤ → List ℚ` of the builder; every theorem holds for an
  arbitrary such function (where needed, with the documented length law
  `(fftMag l).length = l.length` as a hypothesis).
* Python's `sorted` is a stable sort; a stable sort is uniquely
  determined by the comparison, so it is embedded as the structurally
  recursive stable insertion sort `isort`.
* The external collaborators (`communicate.media_to_mono_wave` +
  `communicate.read_audio`, and `communicate.get_media_info`) are an
  explicit environment `AVEnv` of `decode`/`probe` functions.
* Raising an exception is `Except.error`; `FdErr.noMatch` is the
  no-match `Exception` of `_find_delay`, `FdErr.emptyHist` the
  `IndexError` that `t_diffs_sorted[-1]` would raise on an empty
  histogram.
-/

/-! ### Association lists modelling Python dicts -/

/-- Python `defaultdict(list)` update `d[k].append(v)`: the first entry with key `k`
gets `v` appended at the end of its list; a missing key is appended at the
end of the dict (Python insertion order). -/
def alUpd [DecidableEq K] (m : List (K × List V)) (k : K) (v : V) : List (K × List V) :=
  match m with
  | [] => [(k, [v])]
  | (k', vs) :: rest => if k' = k then (k', vs ++ [v]) :: rest else (k', vs) :: alUpd rest k v

/-- Build a dict-of-lists from a stream of (key, value) pairs. -/
def alBuild [DecidableEq K] (ps : List (K × V)) : List (K × List V) :=
  ps.foldl (fun m p => alUpd m p.1 p.2) []

/-- Python `d.get(k)` on a dict represented as an association list. -/
def alFind [DecidableEq K] (m : List (K × V)) (k : K) : Option V :=
  (m.find? (fun p => decide (p.1 = k))).map Prod.snd

/-- Lookup in a dict-of-lists, defaulting to the empty list. -/
def alGet [DecidableEq K] (m : List (K × List V)) (k : K) : List V :=
  (alFind m k).getD []

/-- The key list of a dict. -/
def alKeys (m : List (K × V)) : List K := m.map Prod.fst

/-- The flattened contents of a dict-of-lists. -/
def pts (m : List (K × List V)) : List (K × V) :=
  m.flatMap (fun kv => kv.2.map (fun v => (kv.1, v)))

theorem alKeys_nil : alKeys ([] : List (K × V)) = [] := rfl

theorem alKeys_cons (p : K × V) (t : List (K × V)) :
    alKeys (p :: t) = p.1 :: alKeys t := rfl

theorem pts_nil : pts ([] : List (K × List V)) = [] := rfl

theorem pts_cons (k : K) (vs : List V) (t : List (K × List V)) :
    pts ((k, vs) :: t) = vs.map (fun v => (k, v)) ++ pts t := rfl

theorem alUpd_nil [DecidableEq K] (k : K) (v : V) :
    alUpd ([] : List (K × List V)) k v = [(k, [v])] := rfl

theorem alUpd_cons_pos [DecidableEq K] (k : K) (v : V) (vs : List V)
    (t : List (K × List V)) : alUpd ((k, vs) :: t) k v = (k, vs ++ [v]) :: t := by
  simp [alUpd]

theorem alUpd_cons_neg [DecidableEq K] (k k' : K) (v : V) (vs : List V)
    (t : List (K × List V)) (hk : k' ≠ k) :
    alUpd ((k', vs) :: t) k v = (k', vs) :: alUpd t k v := by
  simp [alUpd, hk]

theorem alFind_cons_pos [DecidableEq K] (k : K) (v : V) (t : List (K × V)) :
    alFind ((k, v) :: t) k = some v := by
  unfold alFind
  rw [List.find?_cons_of_pos _ (by simp)]
  rfl

theorem alFind_cons_neg [DecidableEq K] (k k' : K) (v : V) (t : List (K × V))
    (hk : k' ≠ k) : alFind ((k', v) :: t) k = alFind t k := by
  unfold alFind
  rw [List.find?_cons_of_neg _ (by simpa using hk)]

theorem alKeys_alUpd [DecidableEq K] (m : List (K × List V)) (k : K) (v : V) :
    alKeys (alUpd m k v) = if k ∈ alKeys m then alKeys m else alKeys m ++ [k] := by
  induction m with
  | nil => simp [alUpd_nil, alKeys]
  | cons kv t ih =>
    obtain ⟨k', vs⟩ := kv
    by_cases hk : k' = k
    · subst hk
      rw [alUpd_cons_pos]
      simp [alKeys_cons]
    · rw [alUpd_cons_neg _ _ _ _ _ hk, alKeys_cons, alKeys_cons, ih]
      have hne : k ≠ k' := Ne.symm hk
      by_cases hmem : k ∈ alKeys t
      · rw [if_pos hmem, if_pos (by simp [hmem])]
      · rw [if_neg hmem, if_neg (by simp [hmem, hne])]
        rfl

theorem mem_alKeys_alUpd [DecidableEq K] (m : List (K × List V)) (k a : K) (v : V) :
    a ∈ alKeys (alUpd m k v) ↔ a ∈ alKeys m ∨ a = k := by
  rw [alKeys_alUpd]
  by_cases hmem : k ∈ alKeys m
  · rw [if_pos hmem]
    constructor
    · exact Or.inl
    · rintro (h | rfl)
      · exact h
      · exact hmem
  · rw [if_neg hmem]
    simp

theorem nodup_alKeys_alUpd [DecidableEq K] (m : List (K × List V)) (k : K) (v : V)
    (h : (alKeys m).Nodup) : (alKeys (alUpd m k v)).Nodup := by
  rw [alKeys_alUpd]
  by_cases hmem : k ∈ alKeys m
  · rwa [if_pos hmem]
  · rw [if_neg hmem]
    simpa [List.nodup_append] using ⟨h, hmem⟩

theorem nodup_alKeys_alBuild [DecidableEq K] (ps : List (K × V)) :
    (alKeys (alBuild ps)).Nodup := by
  suffices h : ∀ m : List (K × List V), (alKeys m).Nodup →
      (alKeys (ps.foldl (fun m p => alUpd m p.1 p.2) m)).Nodup by
    exact h [] (by simp [alKeys_nil])
  induction ps with
  | nil => intro m hm; simpa using hm
  | cons p t ih =>
    intro m hm
    exact ih _ (nodup_alKeys_alUpd m p.1 p.2 hm)

theorem vals_ne_nil_alUpd [DecidableEq K] (m : List (K × List V)) (k : K) (v : V)
    (h : ∀ kv ∈ m, kv.2 ≠ []) : ∀ kv ∈ alUpd m k v, kv.2 ≠ [] := by
  induction m with
  | nil =>
    intro kv hkv
    rw [alUpd_nil] at hkv
    rcases List.mem_singleton.mp hkv with rfl
    simp
  | cons hd t ih =>
    obtain ⟨k', vs⟩ := hd
    intro kv hkv
    by_cases hk : k' = k
    · subst hk
      rw [alUpd_cons_pos] at hkv
      rcases List.mem_cons.mp hkv with h1 | h1
      · rw [h1]; simp
      · exact h kv (List.mem_cons_of_mem _ h1)
    · rw [alUpd_cons_neg _ _ _ _ _ hk] at hkv
      rcases List.mem_cons.mp hkv with h1 | h1
      · rw [h1]
        exact h (k', vs) (List.mem_cons_self _ _)
      · exact ih (fun kv h' => h kv (List.mem_cons_of_mem _ h')) kv h1

theorem vals_ne_nil_alBuild [DecidableEq K] (ps : List (K × V)) :
    ∀ kv ∈ alBuild ps, kv.2 ≠ [] := by
  suffices h : ∀ m : List (K × List V), (∀ kv ∈ m, kv.2 ≠ []) →
      ∀ kv ∈ ps.foldl (fun m p => alUpd m p.1 p.2) m, kv.2 ≠ [] by
    exact h [] (by simp)
  induction ps with
  | nil => intro m hm; simpa using hm
  | cons p t ih =>
    intro m hm
    exact ih _ (vals_ne_nil_alUpd m p.1 p.2 hm)

theorem countP_pts_alUpd [DecidableEq K] (Q : K × V → Bool) (m : List (K × List V))
    (k : K) (v : V) :
    (pts (alUpd m k v)).countP Q = (pts m).countP Q + if Q (k, v) then 1 else 0 := by
  induction m with
  | nil => simp [alUpd_nil, pts, List.countP_cons]
  | cons hd t ih =>
    obtain ⟨k', vs⟩ := hd
    by_cases hk : k' = k
    · subst hk
      rw [alUpd_cons_pos, pts_cons, pts_cons, List.map_append, List.countP_append,
        List.countP_append, List.countP_append]
      simp only [List.map_cons, List.map_nil, List.countP_cons, List.countP_nil]
      omega
    · rw [alUpd_cons_neg _ _ _ _ _ hk, pts_cons, pts_cons, List.countP_append,
        List.countP_append, ih]
      omega

theorem countP_pts_alBuild [DecidableEq K] (Q : K × V → Bool) (ps : List (K × V)) :
    (pts (alBuild ps)).countP Q = ps.countP Q := by
  suffices h : ∀ m : List (K × List V),
      (pts (ps.foldl (fun m p => alUpd m p.1 p.2) m)).countP Q
        = (pts m).countP Q + ps.countP Q by
    simpa [pts_nil] using h []
  induction ps with
  | nil => intro m; simp
  | cons p t ih =>
    obtain ⟨pk, pv⟩ := p
    intro m
    rw [List.foldl_cons, ih (alUpd m pk pv), countP_pts_alUpd, List.countP_cons]
    omega

theorem count_pts_alBuild [DecidableEq K] [BEq (K × V)] (ps : List (K × V)) (p : K × V) :
    (pts (alBuild ps)).count p = ps.count p := by
  rw [List.count_eq_countP, List.count_eq_countP]
  exact countP_pts_alBuild _ ps

theorem mem_pts_alBuild [DecidableEq K] [DecidableEq V] (ps : List (K × V)) (p : K × V) :
    p ∈ pts (alBuild ps) ↔ p ∈ ps := by
  have h := countP_pts_alBuild (fun x => decide (x = p)) ps
  constructor
  · intro hmem
    have hpos : 0 < (pts (alBuild ps)).countP (fun x => decide (x = p)) :=
      List.countP_pos.mpr ⟨p, hmem, by simp⟩
    rw [h] at hpos
    obtain ⟨a, ha, hap⟩ := List.countP_pos.mp hpos
    rw [← show a = p by simpa using hap]
    exact ha
  · intro hmem
    have hpos : 0 < ps.countP (fun x => decide (x = p)) :=
      List.countP_pos.mpr ⟨p, hmem, by simp⟩
    rw [← h] at hpos
    obtain ⟨a, ha, hap⟩ := List.countP_pos.mp hpos
    rw [← show a = p by simpa using hap]
    exact ha

theorem alFind_of_mem_nodup [DecidableEq K] (m : List (K × V)) (k : K) (v : V)
    (hnd : (alKeys m).Nodup) (hmem : (k, v) ∈ m) : alFind m k = some v := by
  induction m with
  | nil => simp at hmem
  | cons hd t ih =>
    obtain ⟨k', v'⟩ := hd
    rw [alKeys_cons, List.nodup_cons] at hnd
    rcases List.mem_cons.mp hmem with heq | hmem'
    · have hk : k' = k := (congrArg Prod.fst heq).symm
      subst hk
      have hv : v' = v := (congrArg Prod.snd heq).symm
      subst hv
      exact alFind_cons_pos _ _ _
    · have hk : k' ≠ k := by
        rintro rfl
        exact hnd.1 (List.mem_map.mpr ⟨(k', v), hmem', rfl⟩)
      rw [alFind_cons_neg _ _ _ _ hk]
      exact ih hnd.2 hmem'

theorem mem_of_alKeys [DecidableEq K] (m : List (K × V)) (k : K)
    (h : k ∈ alKeys m) : ∃ v, (k, v) ∈ m ∧ alFind m k = some v := by
  induction m with
  | nil => simp [alKeys_nil] at h
  | cons hd t ih =>
    obtain ⟨k', v'⟩ := hd
    by_cases hk : k' = k
    · subst hk
      exact ⟨v', List.mem_cons_self _ _, alFind_cons_pos _ _ _⟩
    · rw [alKeys_cons, List.mem_cons] at h
      rcases h with rfl | h
      · exact absurd rfl hk
      · obtain ⟨v, hv, hfind⟩ := ih h
        exact ⟨v, List.mem_cons_of_mem _ hv, by rw [alFind_cons_neg _ _ _ _ hk]; exact hfind⟩

theorem alGet_of_mem_nodup [DecidableEq K] (m : List (K × List V)) (k : K) (L : List V)
    (hnd : (alKeys m).Nodup) (hmem : (k, L) ∈ m) : alGet m k = L := by
  simp [alGet, alFind_of_mem_nodup m k L hnd hmem]

theorem mem_alGet_mem_pts [DecidableEq K] (m : List (K × List V)) (k : K) (x : V)
    (h : x ∈ alGet m k) : (k, x) ∈ pts m := by
  unfold alGet alFind at h
  cases hfind : m.find? (fun p => decide (p.1 = k)) with
  | none => rw [hfind] at h; simp at h
  | some kv =>
    rw [hfind] at h
    simp only [Option.map_some', Option.getD_some] at h
    have hk : kv.1 = k := by simpa using List.find?_some hfind
    have hmem : kv ∈ m := List.mem_of_find?_eq_some hfind
    have : (kv.1, x) ∈ pts m :=
      List.mem_flatMap.mpr ⟨kv, hmem, List.mem_map.mpr ⟨x, h, rfl⟩⟩
    rwa [hk] at this

theorem count_val_le_count_pts [DecidableEq K]
    [BEq V] [LawfulBEq V] [BEq (K × V)] [LawfulBEq (K × V)]
    (m : List (K × List V)) (k : K) (L : List V) (x : V) (hmem : (k, L) ∈ m) :
    L.count x ≤ (pts m).count (k, x) := by
  induction m with
  | nil => simp at hmem
  | cons hd t ih =>
    obtain ⟨k', vs⟩ := hd
    rw [pts_cons, List.count_append]
    rcases List.mem_cons.mp hmem with heq | hmem'
    · have hk : k' = k := (congrArg Prod.fst heq).symm
      subst hk
      have hv : vs = L := (congrArg Prod.snd heq).symm
      subst hv
      have : (vs.map (fun v => (k', v))).count (k', x) = vs.count x := by
        rw [List.count_eq_countP, List.count_eq_countP, List.countP_map]
        refine List.countP_congr (fun v _ => ?_)
        constructor
        · intro hv
          have : (k', v) = (k', x) := by simpa using hv
          simpa using congrArg Prod.snd this
        · intro hv
          have : v = x := by simpa using hv
          simp [Function.comp, this]
      omega
    · have := ih hmem'
      omega

/-! ### Vote histograms modelling `defaultdict(int)` -/

/-- Vote increment `t_diffs[delta_t] += 1` on a `defaultdict(int)`: the first entry with
key `d` is incremented; a missing key is appended with count 1. -/
def alInc (h : List (ℤ × ℕ)) (d : ℤ) : List (ℤ × ℕ) :=
  match h with
  | [] => [(d, 1)]
  | (k, c) :: rest => if k = d then (k, c + 1) :: rest else (k, c) :: alInc rest d

/-- Build a vote histogram from a stream of deltas. -/
def mkHist (ds : List ℤ) : List (ℤ × ℕ) := ds.foldl alInc []

/-- The vote count of delta `d` (0 if absent). -/
def histGet (h : List (ℤ × ℕ)) (d : ℤ) : ℕ := (alFind h d).getD 0

theorem alInc_ne_nil (h : List (ℤ × ℕ)) (d : ℤ) : alInc h d ≠ [] := by
  cases h with
  | nil => simp [alInc]
  | cons hd t =>
    obtain ⟨k, c⟩ := hd
    by_cases hk : k = d <;> simp [alInc, hk]

theorem histGet_alInc (h : List (ℤ × ℕ)) (d d' : ℤ) :
    histGet (alInc h d) d' = histGet h d' + if d' = d then 1 else 0 := by
  induction h with
  | nil =>
    unfold alInc
    by_cases hd : d' = d
    · subst hd; simp [histGet, alFind_cons_pos, alFind]
    · simp only [histGet]
      rw [alFind_cons_neg _ _ _ _ (Ne.symm hd)]
      simp [alFind, hd]
  | cons hd t ih =>
    obtain ⟨k, c⟩ := hd
    by_cases hk : k = d
    · subst hk
      rw [show alInc ((k, c) :: t) k = (k, c + 1) :: t by simp [alInc]]
      by_cases hd : d' = k
      · subst hd; simp [histGet, alFind_cons_pos]
      · simp [histGet, alFind_cons_neg _ _ _ _ (Ne.symm hd), hd]
    · rw [show alInc ((k, c) :: t) d = (k, c) :: alInc t d by simp [alInc, hk]]
      by_cases hd : d' = k
      · subst hd
        simp [histGet, alFind_cons_pos, hk]
      · rw [histGet, alFind_cons_neg _ _ _ _ (Ne.symm hd), histGet,
          alFind_cons_neg _ _ _ _ (Ne.symm hd)]
        exact ih

theorem histGet_foldl (ds : List ℤ) (h : List (ℤ × ℕ)) (d : ℤ) :
    histGet (ds.foldl alInc h) d = histGet h d + ds.count d := by
  induction ds generalizing h with
  | nil => simp
  | cons a t ih =>
    rw [List.foldl_cons, ih, histGet_alInc, List.count_cons]
    have : (a == d) = decide (d = a) := by
      by_cases hda : d = a
      · subst hda; simp
      · simp [hda, Ne.symm hda]
    rw [this]
    by_cases hda : d = a <;> simp [hda] <;> omega

theorem histGet_mkHist (ds : List ℤ) (d : ℤ) :
    histGet (mkHist ds) d = ds.count d := by
  rw [mkHist, histGet_foldl]
  simp [histGet, alFind]

theorem mem_alKeys_alInc (h : List (ℤ × ℕ)) (d a : ℤ) :
    a ∈ alKeys (alInc h d) ↔ a ∈ alKeys h ∨ a = d := by
  induction h with
  | nil => simp [alInc, alKeys]
  | cons hd t ih =>
    obtain ⟨k, c⟩ := hd
    by_cases hk : k = d
    · subst hk
      rw [show alInc ((k, c) :: t) k = (k, c + 1) :: t by simp [alInc]]
      simp only [alKeys_cons]
      constructor
      · rintro h1; exact Or.inl h1
      · rintro (h1 | rfl)
        · exact h1
        · simp
    · rw [show alInc ((k, c) :: t) d = (k, c) :: alInc t d by simp [alInc, hk]]
      simp only [alKeys_cons, List.mem_cons, ih]
      tauto

theorem nodup_alKeys_alInc (h : List (ℤ × ℕ)) (d : ℤ)
    (hnd : (alKeys h).Nodup) : (alKeys (alInc h d)).Nodup := by
  induction h with
  | nil => simp [alInc, alKeys]
  | cons hd t ih =>
    obtain ⟨k, c⟩ := hd
    rw [alKeys_cons, List.nodup_cons] at hnd
    by_cases hk : k = d
    · subst hk
      rw [show alInc ((k, c) :: t) k = (k, c + 1) :: t by simp [alInc]]
      rw [alKeys_cons, List.nodup_cons]
      exact hnd
    · rw [show alInc ((k, c) :: t) d = (k, c) :: alInc t d by simp [alInc, hk]]
      rw [alKeys_cons, List.nodup_cons]
      refine ⟨?_, ih hnd.2⟩
      rw [mem_alKeys_alInc]
      rintro (h1 | rfl)
      · exact hnd.1 h1
      · exact hk rfl

theorem nodup_alKeys_mkHist (ds : List ℤ) : (alKeys (mkHist ds)).Nodup := by
  suffices h : ∀ h0 : List (ℤ × ℕ), (alKeys h0).Nodup →
      (alKeys (ds.foldl alInc h0)).Nodup by
    exact h [] (by simp [alKeys_nil])
  induction ds with
  | nil => intro h0 hh; simpa using hh
  | cons a t ih => intro h0 hh; exact ih _ (nodup_alKeys_alInc h0 a hh)

theorem mem_alKeys_foldl_alInc (ds : List ℤ) (h : List (ℤ × ℕ)) (d : ℤ) :
    d ∈ alKeys (ds.foldl alInc h) ↔ d ∈ alKeys h ∨ d ∈ ds := by
  induction ds generalizing h with
  | nil => simp
  | cons a t ih =>
    rw [List.foldl_cons, ih, mem_alKeys_alInc]
    simp only [List.mem_cons]
    tauto

theorem mem_alKeys_mkHist (ds : List ℤ) (d : ℤ) :
    d ∈ alKeys (mkHist ds) ↔ d ∈ ds := by
  rw [mkHist, mem_alKeys_foldl_alInc]
  simp [alKeys_nil]

theorem mem_mkHist_count (ds : List ℤ) (d : ℤ) (c : ℕ)
    (hmem : (d, c) ∈ mkHist ds) : c = ds.count d := by
  have := alFind_of_mem_nodup (mkHist ds) d c (nodup_alKeys_mkHist ds) hmem
  have h2 : histGet (mkHist ds) d = c := by simp [histGet, this]
  rw [← h2, histGet_mkHist]

theorem foldl_alInc_ne_nil (ds : List ℤ) (h : List (ℤ × ℕ)) (hh : h ≠ []) :
    ds.foldl alInc h ≠ [] := by
  induction ds generalizing h with
  | nil => simpa using hh
  | cons a t ih => exact ih _ (alInc_ne_nil h a)

theorem mkHist_ne_nil (ds : List ℤ) (hds : ds ≠ []) : mkHist ds ≠ [] := by
  cases ds with
  | nil => exact absurd rfl hds
  | cons a t =>
    rw [mkHist, List.foldl_cons]
    exact foldl_alInc_ne_nil t _ (alInc_ne_nil [] a)

/-! ### Python's stable `sorted` as stable insertion sort -/

/-- Insert `a` after every element `b` with `le b a` (so equal elements
keep their original relative order: stability). -/
def insertOrd (le : α → α → Bool) (a : α) : List α → List α
  | [] => [a]
  | b :: t => if le b a then b :: insertOrd le a t else a :: b :: t

/-- Stable sort: Python's `sorted(l, key=...)`. A stable sort is uniquely
determined by its comparison, so this insertion sort agrees with the
Timsort used by CPython. -/
def isort (le : α → α → Bool) (l : List α) : List α :=
  l.foldl (fun acc a => insertOrd le a acc) []

theorem perm_insertOrd (le : α → α → Bool) (a : α) (l : List α) :
    List.Perm (insertOrd le a l) (a :: l) := by
  induction l with
  | nil => simp [insertOrd]
  | cons b t ih =>
    unfold insertOrd
    by_cases hle : le b a
    · rw [if_pos hle]
      exact (ih.cons b).trans (List.Perm.swap a b t)
    · rw [if_neg hle]

theorem perm_foldl_insertOrd (le : α → α → Bool) (l acc : List α) :
    List.Perm (l.foldl (fun acc a => insertOrd le a acc) acc) (acc ++ l) := by
  induction l generalizing acc with
  | nil => simp
  | cons a t ih =>
    rw [List.foldl_cons]
    refine (ih (insertOrd le a acc)).trans ?_
    refine (List.Perm.append_right t (perm_insertOrd le a acc)).trans ?_
    exact (List.perm_middle).symm

theorem perm_isort (le : α → α → Bool) (l : List α) : List.Perm (isort le l) l := by
  simpa using perm_foldl_insertOrd le l []

theorem pairwise_insertOrd (le : α → α → Bool)
    (htrans : ∀ x y z, le x y = true → le y z = true → le x z = true)
    (htotal : ∀ x y, le x y = true ∨ le y x = true)
    (a : α) (l : List α) (hl : l.Pairwise (fun x y => le x y = true)) :
    (insertOrd le a l).Pairwise (fun x y => le x y = true) := by
  induction l with
  | nil => simp [insertOrd]
  | cons b t ih =>
    rw [List.pairwise_cons] at hl
    unfold insertOrd
    by_cases hle : le b a
    · rw [if_pos hle]
      rw [List.pairwise_cons]
      refine ⟨?_, ih hl.2⟩
      intro a' ha'
      rcases List.mem_cons.mp ((perm_insertOrd le a t).mem_iff.mp ha') with rfl | h1
      · exact hle
      · exact hl.1 a' h1
    · rw [if_neg hle]
      have hab : le a b = true := by
        rcases htotal a b with h1 | h1
        · exact h1
        · exact absurd h1 hle
      rw [List.pairwise_cons]
      refine ⟨?_, List.pairwise_cons.mpr hl⟩
      intro a' ha'
      rcases List.mem_cons.mp ha' with rfl | h1
      · exact hab
      · exact htrans a b a' hab (hl.1 a' h1)

theorem pairwise_isort (le : α → α → Bool)
    (htrans : ∀ x y z, le x y = true → le y z = true → le x z = true)
    (htotal : ∀ x y, le x y = true ∨ le y x = true)
    (l : List α) : (isort le l).Pairwise (fun x y => le x y = true) := by
  suffices h : ∀ acc : List α, acc.Pairwise (fun x y => le x y = true) →
      (l.foldl (fun acc a => insertOrd le a acc) acc).Pairwise
        (fun x y => le x y = true) by
    exact h [] (by simp)
  induction l with
  | nil => intro acc hacc; simpa using hacc
  | cons a t ih =>
    intro acc hacc
    exact ih _ (pairwise_insertOrd le htrans htotal a acc hacc)

theorem getLast?_mem_self (l : List α) (p : α) (hp : l.getLast? = some p) : p ∈ l := by
  induction l with
  | nil => simp at hp
  | cons a t ih =>
    cases t with
    | nil =>
      simp only [List.getLast?_singleton, Option.some.injEq] at hp
      simp [hp]
    | cons b t' =>
      rw [List.getLast?_cons_cons] at hp
      exact List.mem_cons_of_mem _ (ih hp)

theorem getLast?_max_of_pairwise (le : α → α → Bool) (l : List α)
    (hl : l.Pairwise (fun x y => le x y = true)) (p : α) (hp : l.getLast? = some p) :
    ∀ q ∈ l, q = p ∨ le q p = true := by
  induction l with
  | nil => simp at hp
  | cons a t ih =>
    cases t with
    | nil =>
      simp only [List.getLast?_singleton, Option.some.injEq] at hp
      intro q hq
      rw [List.mem_singleton.mp hq, hp]
      exact Or.inl rfl
    | cons b t' =>
      rw [List.getLast?_cons_cons] at hp
      rw [List.pairwise_cons] at hl
      intro q hq
      rcases List.mem_cons.mp hq with rfl | hq'
      · exact Or.inr (hl.1 p (getLast?_mem_self _ _ hp))
      · exact ih hl.2 hp q hq'

/-- The comparison used on histograms: `sorted(..., key=lambda x: x[1])`. -/
def voteLe (a b : ℤ × ℕ) : Bool := decide (a.2 ≤ b.2)

/-- The last element of the stably sorted histogram is a maximal-vote
entry of the histogram. -/
theorem isort_getLast?_max (h : List (ℤ × ℕ)) (p : ℤ × ℕ)
    (hp : (isort voteLe h).getLast? = some p) :
    p ∈ h ∧ ∀ q ∈ h, q.2 ≤ p.2 := by
  have hperm := perm_isort voteLe h
  have hpair := pairwise_isort voteLe
    (fun x y z hxy hyz => by
      simp only [voteLe, decide_eq_true_eq] at *
      omega)
    (fun x y => by
      simp only [voteLe, decide_eq_true_eq]
      omega) h
  have hmem : p ∈ h := hperm.mem_iff.mp (getLast?_mem_self _ _ hp)
  refine ⟨hmem, fun q hq => ?_⟩
  have hq' : q ∈ isort voteLe h := hperm.mem_iff.mpr hq
  rcases getLast?_max_of_pairwise voteLe _ hpair p hp q hq' with rfl | hle
  · exact le_refl _
  · simpa [voteLe] using hle

/-! ### numpy-style min/max over arrays, and Python `int()` -/

/-- numpy `ndarray.min()` of a nonempty array (the `[]` case is unreachable in
the program: `tmp_result` always holds at least `[0.0]`). -/
def npMin [LinearOrder α] [Inhabited α] : List α → α
  | [] => default
  | x :: xs => xs.foldl min x

/-- numpy `ndarray.max()` of a nonempty array. -/
def npMax [LinearOrder α] [Inhabited α] : List α → α
  | [] => default
  | x :: xs => xs.foldl max x

theorem foldl_min_le_init [LinearOrder α] (xs : List α) (x : α) :
    xs.foldl min x ≤ x := by
  induction xs generalizing x with
  | nil => simp
  | cons a t ih => exact le_trans (ih (min x a)) (min_le_left x a)

theorem foldl_min_le_mem [LinearOrder α] (xs : List α) (x y : α) (hy : y ∈ xs) :
    xs.foldl min x ≤ y := by
  induction xs generalizing x with
  | nil => simp at hy
  | cons a t ih =>
    rcases List.mem_cons.mp hy with rfl | hy'
    · exact le_trans (foldl_min_le_init t (min x y)) (min_le_right x y)
    · exact ih (min x a) hy'

theorem foldl_min_choice [LinearOrder α] (xs : List α) (x : α) :
    xs.foldl min x = x ∨ xs.foldl min x ∈ xs := by
  induction xs generalizing x with
  | nil => exact Or.inl rfl
  | cons a t ih =>
    rw [List.foldl_cons]
    rcases ih (min x a) with h | h
    · rcases min_choice x a with hm | hm
      · exact Or.inl (h.trans hm)
      · exact Or.inr (by rw [h, hm]; exact List.mem_cons_self a t)
    · exact Or.inr (List.mem_cons_of_mem a h)

theorem npMin_le [LinearOrder α] [Inhabited α] (l : List α) (y : α) (hy : y ∈ l) :
    npMin l ≤ y := by
  cases l with
  | nil => simp at hy
  | cons x xs =>
    rcases List.mem_cons.mp hy with rfl | hy'
    · exact foldl_min_le_init xs y
    · exact foldl_min_le_mem xs x y hy'

theorem npMin_mem [LinearOrder α] [Inhabited α] (l : List α) (hl : l ≠ []) :
    npMin l ∈ l := by
  cases l with
  | nil => exact absurd rfl hl
  | cons x xs =>
    rcases foldl_min_choice xs x with h | h
    · rw [npMin, h]; exact List.mem_cons_self x xs
    · exact List.mem_cons_of_mem x (by rw [npMin]; exact h)

theorem foldl_max_init_le [LinearOrder α] (xs : List α) (x : α) :
    x ≤ xs.foldl max x := by
  induction xs generalizing x with
  | nil => simp
  | cons a t ih => exact le_trans (le_max_left x a) (ih (max x a))

theorem foldl_max_mem_le [LinearOrder α] (xs : List α) (x y : α) (hy : y ∈ xs) :
    y ≤ xs.foldl max x := by
  induction xs generalizing x with
  | nil => simp at hy
  | cons a t ih =>
    rcases List.mem_cons.mp hy with rfl | hy'
    · exact le_trans (le_max_right x y) (foldl_max_init_le t (max x y))
    · exact ih (max x a) hy'

theorem foldl_max_choice [LinearOrder α] (xs : List α) (x : α) :
    xs.foldl max x = x ∨ xs.foldl max x ∈ xs := by
  induction xs generalizing x with
  | nil => exact Or.inl rfl
  | cons a t ih =>
    rw [List.foldl_cons]
    rcases ih (max x a) with h | h
    · rcases max_choice x a with hm | hm
      · exact Or.inl (h.trans hm)
      · exact Or.inr (by rw [h, hm]; exact List.mem_cons_self a t)
    · exact Or.inr (List.mem_cons_of_mem a h)

theorem le_npMax [LinearOrder α] [Inhabited α] (l : List α) (y : α) (hy : y ∈ l) :
    y ≤ npMax l := by
  cases l with
  | nil => simp at hy
  | cons x xs =>
    rcases List.mem_cons.mp hy with rfl | hy'
    · exact foldl_max_init_le xs y
    · exact foldl_max_mem_le xs x y hy'

theorem npMax_mem [LinearOrder α] [Inhabited α] (l : List α) (hl : l ≠ []) :
    npMax l ∈ l := by
  cases l with
  | nil => exact absurd rfl hl
  | cons x xs =>
    rcases foldl_max_choice xs x with h | h
    · rw [npMax, h]; exact List.mem_cons_self x xs
    · exact List.mem_cons_of_mem x (by rw [npMax]; exact h)

theorem npMax_map_sub_const (l : List ℚ) (c : ℚ) (hl : l ≠ []) :
    npMax (l.map (fun z => z - c)) = npMax l - c := by
  cases l with
  | nil => exact absurd rfl hl
  | cons x xs =>
    rw [List.map_cons, npMax, npMax]
    clear hl
    induction xs generalizing x with
    | nil => simp
    | cons a t ih =>
      rw [List.map_cons, List.foldl_cons, List.foldl_cons, max_sub_sub_right]
      exact ih (max x a)

/-- Python's `int(x)`: truncation toward zero (`int(2.5) = 2`,
`int(-2.5) = -2`). -/
def pyInt (q : ℚ) : ℤ := if 0 ≤ q then ⌊q⌋ else -⌊-q⌋

/-! ### Generic list helpers -/

theorem foldl_flatMap_eq (f : α → List β) (g : σ → β → σ) (l : List α) (init : σ) :
    l.foldl (fun s a => (f a).foldl g s) init = (l.flatMap f).foldl g init := by
  induction l generalizing init with
  | nil => rfl
  | cons a t ih => simp [List.flatMap_cons, List.foldl_append, ih]

theorem countP_flatMap_eq (p : β → Bool) (l : List α) (f : α → List β) :
    (l.flatMap f).countP p = (l.map (fun a => (f a).countP p)).sum := by
  induction l with
  | nil => rfl
  | cons a t ih => simp [List.flatMap_cons, List.countP_append, ih]

theorem count_flatMap_eq [BEq β] (c : β) (l : List α) (f : α → List β) :
    (l.flatMap f).count c = (l.map (fun a => (f a).count c)).sum := by
  induction l with
  | nil => rfl
  | cons a t ih => simp [List.flatMap_cons, List.count_append, ih]

theorem nodup_flatMap_of_disjoint (l : List α) (f : α → List β) (g : β → α)
    (hl : l.Nodup) (hf : ∀ a ∈ l, (f a).Nodup) (hg : ∀ a ∈ l, ∀ b ∈ f a, g b = a) :
    (l.flatMap f).Nodup := by
  induction l with
  | nil => simp
  | cons a t ih =>
    rw [List.flatMap_cons, List.nodup_append]
    rw [List.nodup_cons] at hl
    refine ⟨hf a (List.mem_cons_self a t),
      ih hl.2 (fun a' ha' => hf a' (List.mem_cons_of_mem a ha'))
        (fun a' ha' => hg a' (List.mem_cons_of_mem a ha')), ?_⟩
    intro b hb hb'
    obtain ⟨a', ha', hfa'⟩ := List.mem_flatMap.mp hb'
    have h1 : g b = a := hg a (List.mem_cons_self a t) b hb
    have h2 : g b = a' := hg a' (List.mem_cons_of_mem a ha') b hfa'
    exact hl.1 (h1 ▸ h2 ▸ ha')

theorem sum_map_one (l : List α) : (l.map (fun _ => (1 : ℕ))).sum = l.length := by
  induction l with
  | nil => rfl
  | cons a t ih => simp [ih]; omega

theorem count_le_one_of_nodup {β : Type} [BEq β] [LawfulBEq β] (l : List β)
    (hl : l.Nodup) (b : β) : l.count b ≤ 1 := by
  induction l with
  | nil => simp
  | cons a t ih =>
    rw [List.nodup_cons] at hl
    rw [List.count_cons]
    by_cases hab : a = b
    · subst hab
      have : t.count a = 0 := by
        by_contra h0
        exact hl.1 (List.count_pos_iff.mp (by omega))
      simp [this]
    · have : (a == b) = false := by simpa using hab
      simp only [this]
      simpa using ih hl.2

theorem nodup_of_count_le_one {β : Type} [BEq β] [LawfulBEq β] (l : List β)
    (h : ∀ b, l.count b ≤ 1) : l.Nodup := by
  induction l with
  | nil => simp
  | cons a t ih =>
    rw [List.nodup_cons]
    constructor
    · intro hmem
      have h1 := h a
      rw [List.count_cons] at h1
      simp only [BEq.refl, if_true] at h1
      have h2 : 0 < t.count a := List.count_pos_iff.mpr hmem
      omega
    · refine ih (fun b => ?_)
      have h1 := h b
      rw [List.count_cons] at h1
      omega

theorem getD_map_of_lt (l : List α) (f : α → β) (i : ℕ) (h : i < l.length)
    (d : β) (d' : α) : (l.map f).getD i d = f (l.getD i d') := by
  induction l generalizing i with
  | nil => simp at h
  | cons a t ih =>
    cases i with
    | zero => simp
    | succ n =>
      rw [List.map_cons, List.getD_cons_succ, List.getD_cons_succ]
      exact ih n (by simpa using h)

theorem getD_zipWith_of_lt (f : α → β → γ) (l1 : List α) (l2 : List β) (i : ℕ)
    (h1 : i < l1.length) (h2 : i < l2.length) (d : γ) (da : α) (db : β) :
    (List.zipWith f l1 l2).getD i d = f (l1.getD i da) (l2.getD i db) := by
  induction l1 generalizing l2 i with
  | nil => simp at h1
  | cons a t ih =>
    cases l2 with
    | nil => simp at h2
    | cons b t2 =>
      cases i with
      | zero => simp
      | succ n =>
        rw [List.zipWith_cons_cons, List.getD_cons_succ, List.getD_cons_succ,
          List.getD_cons_succ]
        exact ih t2 n (by simpa using h1) (by simpa using h2)

/-! ### `_mk_freq_trans_summary` -/

/-- Iteration count of Python's `range(-overlap, dataLen, step)` for
`step > 0`: `⌈(dataLen + overlap) / step⌉`. -/
def numWindows (dataLen overlap step : ℕ) : ℕ := (dataLen + overlap + step - 1) / step

/-- One windowed slice `data[max(0, j) : max(0, j) + fft_bin_size]` for
`j = x * (fft_bin_size - overlap) - overlap`; truncated `ℕ` subtraction is
exactly the `max(0, ·)` clamp applied to `j`. -/
def windowData (data : List ℤ) (fft_bin_size overlap x : ℕ) : List ℤ :=
  (data.drop (x * (fft_bin_size - overlap) - overlap)).take fft_bin_size

/-- The stream of triples appended to `boxes`: for each window `x` whose
slice is full (`len(sample_data) == fft_bin_size`), the triples
`(intensities[y], x, y)` for `y in range(len(intensities) // 2)` where
`intensities = fftMag(sample_data)`. -/
def windowEntries (fftMag : List ℤ → List ℚ) (data : List ℤ)
    (fft_bin_size overlap : ℕ) : List (ℚ × ℕ × ℕ) :=
  (List.range (numWindows data.length overlap (fft_bin_size - overlap))).flatMap
    (fun x =>
      if (windowData data fft_bin_size overlap x).length = fft_bin_size then
        (List.range ((fftMag (windowData data fft_bin_size overlap x)).length / 2)).map
          (fun y => ((fftMag (windowData data fft_bin_size overlap x)).getD y 0, x, y))
      else [])

/-- The grouping `boxes[(box_x, box_y)].append((intensities[y], x, y))` with
`box_x = x // box_width`, `box_y = y // box_height`. -/
def mkBoxes (fftMag : List ℤ → List ℚ) (data : List ℤ)
    (fft_bin_size overlap box_height box_width : ℕ) :
    List ((ℕ × ℕ) × List (ℚ × ℕ × ℕ)) :=
  (windowEntries fftMag data fft_bin_size overlap).foldl
    (fun b e => alUpd b (e.2.1 / box_width, e.2.2 / box_height) e) []

/-- Comparison of `sorted(..., key=lambda x: -x[0])`: stable descending by
intensity. -/
def intensityGe (a b : ℚ × ℕ × ℕ) : Bool := decide (b.1 ≤ a.1)

/-- The builder `_mk_freq_trans_summary`: for each box (in insertion order) keep the
`maxes_per_box` highest-intensity triples and append
`freqs_dict[y].append(x)` for each kept triple. Window indices are cast
`ℕ → ℤ` because `_find_delay` subtracts them (Python ints are untyped). -/
def mk_freq_trans_summary (fftMag : List ℤ → List ℚ) (data : List ℤ)
    (fft_bin_size overlap box_height box_width maxes_per_box : ℕ) :
    List (ℕ × List ℤ) :=
  (mkBoxes fftMag data fft_bin_size overlap box_height box_width).foldl
    (fun fd kv =>
      ((isort intensityGe kv.2).take maxes_per_box).foldl
        (fun fd2 e => alUpd fd2 e.2.2 ((e.2.1 : ℤ))) fd) []

/-! ### `_find_delay` -/

/-- The two failure modes of `_find_delay`: the explicit no-match
`Exception`, and the `IndexError` `t_diffs_sorted[-1]` would raise on an
empty histogram (unreachable for summaries built by
`mk_freq_trans_summary`). -/
inductive FdErr where
  | noMatch
  | emptyHist
deriving DecidableEq

/-- The intersection `keys = set(freqs_dict_sample.keys()) & set(freqs_dict_orig.keys())`.
The set's iteration order is immaterial for every property proved below;
the sample's insertion order is used here. -/
def sharedKeys (freqs_dict_orig freqs_dict_sample : List (ℕ × List ℤ)) : List ℕ :=
  (alKeys freqs_dict_sample).filter (fun k => decide (k ∈ alKeys freqs_dict_orig))

/-- The stream of `delta_t = x_i - x_j` votes, in loop order. -/
def allDeltas (freqs_dict_orig freqs_dict_sample : List (ℕ × List ℤ)) : List ℤ :=
  (sharedKeys freqs_dict_orig freqs_dict_sample).flatMap (fun key =>
    (alGet freqs_dict_sample key).flatMap (fun xi =>
      (alGet freqs_dict_orig key).map (fun xj => xi - xj)))

/-- The histogram `t_diffs`, built by the three nested loops. -/
def delayHist (freqs_dict_orig freqs_dict_sample : List (ℕ × List ℤ)) : List (ℤ × ℕ) :=
  (sharedKeys freqs_dict_orig freqs_dict_sample).foldl (fun h key =>
    (alGet freqs_dict_sample key).foldl (fun h2 xi =>
      (alGet freqs_dict_orig key).foldl (fun h3 xj => alInc h3 (xi - xj)) h2) h) []

/-- The estimator `_find_delay`: raise on empty key intersection, otherwise return the
first component of the last entry of the histogram stably sorted by vote
count (`sorted(t_diffs.items(), key=lambda x: x[1])[-1][0]`). -/
def find_delay (freqs_dict_orig freqs_dict_sample : List (ℕ × List ℤ)) :
    Except FdErr ℤ :=
  if sharedKeys freqs_dict_orig freqs_dict_sample = [] then Except.error FdErr.noMatch
  else
    match (isort voteLe (delayHist freqs_dict_orig freqs_dict_sample)).getLast? with
    | none => Except.error FdErr.emptyHist
    | some p => Except.ok p.1

theorem delayHist_eq_mkHist (o s : List (ℕ × List ℤ)) :
    delayHist o s = mkHist (allDeltas o s) := by
  unfold delayHist allDeltas mkHist
  rw [← foldl_flatMap_eq]
  congr 1
  funext h key
  rw [← foldl_flatMap_eq]
  congr 1
  funext h2 xi
  rw [List.foldl_map]

/-! ### Normalization and orchestration (`SyncDetector`) -/

/-- The conversion factor `samples_per_sec = float(rate) / float(fft_bin_size)`. -/
def samplesPerSec (rate : ℚ) (fft_bin_size : ℕ) : ℚ := rate / (fft_bin_size : ℚ)

/-- The conversion `seconds = float(delay) / float(samples_per_sec)`. -/
def delayInSeconds (delay : ℤ) (rate : ℚ) (fft_bin_size : ℕ) : ℚ :=
  (delay : ℚ) / samplesPerSec rate fft_bin_size

/-- The known-delay hint map `_known_delay_ge_map`: Python dict from file
index to seconds. -/
abbrev HintMap := List (ℕ × ℚ)

/-- The body of the re-centering loop of `_align`: for each
`i in range(len(result))` with `i in map`: `result += map[i]` (added to
every entry) followed by `result[i] -= map[i]`. -/
def recenterLoop (result : List ℚ) (m : HintMap) : List ℚ :=
  (List.range result.length).foldl
    (fun res i =>
      match alFind m i with
      | some v =>
        let r1 := res.map (fun z => z + v)
        r1.set i (r1.getD i 0 - v)
      | none => res)
    result

/-- Hint re-centering in `_align`: the loop above, guarded by the dict's
truthiness (`if self._known_delay_ge_map:`). -/
def recenter (result : List ℚ) (m : HintMap) : List ℚ :=
  if m.isEmpty then result else recenterLoop result m

/-- The normalization block of `_align`:
`pad_pre = result - result.min()`, `trim_pre = -(pad_pre - pad_pre.max())`,
`pad_post = (pad_pre + orig_dur).max() - (pad_pre + orig_dur)`,
`trim_post = (orig_dur - trim_pre) - (orig_dur - trim_pre).min()`,
returned as `(pad_pre, trim_pre, pad_post, trim_post)`. -/
def mkEditValues (result orig_dur : List ℚ) :
    List ℚ × List ℚ × List ℚ × List ℚ :=
  let pad_pre := result.map (fun r => r - npMin result)
  let trim_pre := pad_pre.map (fun p => -(p - npMax pad_pre))
  let sums := List.zipWith (fun p d => p + d) pad_pre orig_dur
  let pad_post := sums.map (fun z => npMax sums - z)
  let diffs := List.zipWith (fun d t => d - t) orig_dur trim_pre
  let trim_post := diffs.map (fun z => z - npMin diffs)
  (pad_pre, trim_pre, pad_post, trim_post)

/-- External collaborators of the core: `decode` bundles
`communicate.media_to_mono_wave` + `communicate.read_audio` as
`(file, starttime_offset, duration, sample_rate) ↦ (rate, samples)`;
`probe` is `communicate.get_media_info(file)["duration"]`; `fftMag` is
`np.abs ∘ np.fft.fft`. -/
structure AVEnv (α : Type) where
  decode : α → ℚ → ℚ → ℚ → ℚ × List ℤ
  probe : α → ℚ
  fftMag : List ℤ → List ℚ

/-- The state of a `SyncDetector` instance (the fields `_align`/`align`
read and write; the `_orig_infos` memo cache is semantically invisible for
a pure `probe` and is omitted). -/
structure SyncDetector where
  max_misalignment : ℚ
  sample_rate : ℚ
  known_delay_ge_map : HintMap
deriving DecidableEq

/-- Extraction (`_extract_audio` + `read_audio`): decode file `idx` from offset
`_known_delay_ge_map.get(idx, 0)` with duration `_max_misalignment * 2`. -/
def SyncDetector.extract [Inhabited α] (det : SyncDetector) (env : AVEnv α)
    (files : List α) (rate : ℚ) (idx : ℕ) : ℚ × List ℤ :=
  env.decode (files.getD idx default) ((alFind det.known_delay_ge_map idx).getD 0)
    (det.max_misalignment * 2) rate

/-- The helper `_each(idx)` in `_align`: decode one file and build its summary. -/
def SyncDetector.each [Inhabited α] (det : SyncDetector) (env : AVEnv α)
    (files : List α) (rate : ℚ)
    (fft_bin_size overlap box_height box_width samples_per_box : ℕ) (idx : ℕ) :
    ℚ × List (ℕ × List ℤ) :=
  let rw := det.extract env files rate idx
  (rw.1, mk_freq_trans_summary env.fftMag rw.2 fft_bin_size overlap box_height
    box_width samples_per_box)

/-- The `for i in range(len(files) - 1)` loop of `_align`, with exception
propagation: the first raise aborts, otherwise the results are collected
in order. -/
def exceptMapList (f : ℕ → Except FdErr ℚ) : List ℕ → Except FdErr (List ℚ)
  | [] => Except.ok []
  | i :: t =>
    match f i with
    | Except.error e => Except.error e
    | Except.ok v =>
      match exceptMapList f t with
      | Except.error e => Except.error e
      | Except.ok vs => Except.ok (v :: vs)

/-- One pass (`SyncDetector._align`): `tmp_result = [0.0]` then, for each
further file, append `-seconds` for the estimated delay against file 0;
re-center by the hint map; normalize. Returns
`(pad_pre, trim_pre, orig_dur, pad_post, trim_post)`; a no-match aborts
the whole pass (the exception propagates). -/
def SyncDetector.alignPass [Inhabited α] (det : SyncDetector) (env : AVEnv α)
    (rate : ℚ) (files : List α)
    (fft_bin_size overlap box_height box_width samples_per_box : ℕ) :
    Except FdErr (List ℚ × List ℚ × List ℚ × List ℚ × List ℚ) :=
  let ft1 := (det.each env files rate fft_bin_size overlap box_height box_width
    samples_per_box 0).2
  match exceptMapList (fun i =>
      let r2 := det.each env files rate fft_bin_size overlap box_height box_width
        samples_per_box (i + 1)
      (find_delay ft1 r2.2).map (fun delay =>
        -(delayInSeconds delay r2.1 fft_bin_size)))
    (List.range (files.length - 1)) with
  | Except.error e => Except.error e
  | Except.ok rest =>
    let result := recenter ((0 : ℚ) :: rest) det.known_delay_ge_map
    let orig_dur := files.map env.probe
    let ev := mkEditValues result orig_dur
    Except.ok (ev.1, ev.2.1, orig_dur, ev.2.2.1, ev.2.2.2)

/-- The hint refinement between the passes (`align`):
`{i: max(0.0, int(trim_pre[i] - 5.0)) for i in range(len(trim_pre))}`. -/
def refineHints (trim_pre : List ℚ) : HintMap :=
  (List.range trim_pre.length).map
    (fun i => (i, max 0 ((pyInt (trim_pre.getD i 0 - 5) : ℤ) : ℚ)))

/-- One entry of the returned edit list:
`{"trim": trim_pre[i], "pad": pad_pre[i], "orig_duration": orig_dur[i],
"trim_post": trim_post[i], "pad_post": pad_post[i]}`. -/
structure EditEntry where
  trim : ℚ
  pad : ℚ
  orig_duration : ℚ
  trim_post : ℚ
  pad_post : ℚ
deriving DecidableEq, Inhabited

/-- The driver `SyncDetector.align`: coarse pass at `44100 // 12 = 3675` Hz, replace
`_known_delay_ge_map` by the refined hints and `_max_misalignment` by 15,
fine pass at the configured sample rate, and zip the edit values with the
files in input order. Returns the mutated detector state together with the
edit list. -/
def SyncDetector.align [Inhabited α] (det : SyncDetector) (env : AVEnv α)
    (files : List α)
    (fft_bin_size overlap box_height box_width samples_per_box : ℕ) :
    Except FdErr (SyncDetector × List (α × EditEntry)) :=
  match det.alignPass env 3675 files fft_bin_size overlap box_height box_width
    samples_per_box with
  | Except.error e => Except.error e
  | Except.ok c =>
    let det1 : SyncDetector :=
      { det with known_delay_ge_map := refineHints c.2.1, max_misalignment := 15 }
    match det1.alignPass env det.sample_rate files fft_bin_size overlap box_height
      box_width samples_per_box with
    | Except.error e => Except.error e
    | Except.ok f =>
      Except.ok (det1,
        (List.range files.length).map (fun i =>
          (files.getD i default,
            { trim := f.2.1.getD i 0, pad := f.1.getD i 0,
              orig_duration := f.2.2.1.getD i 0,
              trim_post := f.2.2.2.2.getD i 0, pad_post := f.2.2.2.1.getD i 0 })))

/-! ### Structure of the built summary -/

/-- The (frequency, time) stream appended to `freqs_dict` by the second
loop of `_mk_freq_trans_summary`, in loop order. -/
def summaryStream (fftMag : List ℤ → List ℚ) (data : List ℤ)
    (fft_bin_size overlap box_height box_width maxes_per_box : ℕ) : List (ℕ × ℤ) :=
  (mkBoxes fftMag data fft_bin_size overlap box_height box_width).flatMap (fun kv =>
    ((isort intensityGe kv.2).take maxes_per_box).map (fun e => (e.2.2, (e.2.1 : ℤ))))

theorem mk_freq_eq_alBuild (fftMag : List ℤ → List ℚ) (data : List ℤ)
    (fft_bin_size overlap box_height box_width maxes_per_box : ℕ) :
    mk_freq_trans_summary fftMag data fft_bin_size overlap box_height box_width
        maxes_per_box
      = alBuild (summaryStream fftMag data fft_bin_size overlap box_height box_width
        maxes_per_box) := by
  unfold mk_freq_trans_summary alBuild summaryStream
  rw [← foldl_flatMap_eq]
  congr 1
  funext fd kv
  rw [List.foldl_map]

theorem mkBoxes_eq_alBuild (fftMag : List ℤ → List ℚ) (data : List ℤ)
    (fft_bin_size overlap box_height box_width : ℕ) :
    mkBoxes fftMag data fft_bin_size overlap box_height box_width
      = alBuild ((windowEntries fftMag data fft_bin_size overlap).map
          (fun e => ((e.2.1 / box_width, e.2.2 / box_height), e))) := by
  unfold mkBoxes alBuild
  rw [List.foldl_map]

theorem fst_mem_alKeys_of_mem_pts [DecidableEq K] (m : List (K × List V)) (p : K × V)
    (h : p ∈ pts m) : p.1 ∈ alKeys m := by
  obtain ⟨kv, hkv, hmem⟩ := List.mem_flatMap.mp h
  obtain ⟨v, _, hv⟩ := List.mem_map.mp hmem
  rw [← hv]
  exact List.mem_map.mpr ⟨kv, hkv, rfl⟩

theorem mem_alKeys_alBuild [DecidableEq K] [DecidableEq V] (ps : List (K × V)) (k : K) :
    k ∈ alKeys (alBuild ps) ↔ ∃ v, (k, v) ∈ ps := by
  constructor
  · intro h
    obtain ⟨L, hL, _⟩ := mem_of_alKeys _ _ h
    have hne : L ≠ [] := vals_ne_nil_alBuild ps (k, L) hL
    obtain ⟨x, hx⟩ := List.exists_mem_of_ne_nil L hne
    have hpts : (k, x) ∈ pts (alBuild ps) :=
      List.mem_flatMap.mpr ⟨(k, L), hL, List.mem_map.mpr ⟨x, hx, rfl⟩⟩
    exact ⟨x, (mem_pts_alBuild ps (k, x)).mp hpts⟩
  · rintro ⟨v, hv⟩
    exact fst_mem_alKeys_of_mem_pts _ (k, v) ((mem_pts_alBuild ps (k, v)).mpr hv)

/-- Membership in the summary's contents comes from the summary stream. -/
theorem mem_summary_mem_stream (fftMag : List ℤ → List ℚ) (data : List ℤ)
    (fft_bin_size overlap box_height box_width maxes_per_box : ℕ)
    (y : ℕ) (L : List ℤ) (x : ℤ)
    (hL : (y, L) ∈ mk_freq_trans_summary fftMag data fft_bin_size overlap box_height
      box_width maxes_per_box)
    (hx : x ∈ L) :
    (y, x) ∈ summaryStream fftMag data fft_bin_size overlap box_height box_width
      maxes_per_box := by
  rw [mk_freq_eq_alBuild] at hL
  have hpts : (y, x) ∈ pts (alBuild (summaryStream fftMag data fft_bin_size overlap
      box_height box_width maxes_per_box)) :=
    List.mem_flatMap.mpr ⟨(y, L), hL, List.mem_map.mpr ⟨x, hx, rfl⟩⟩
  exact (mem_pts_alBuild _ _).mp hpts

/-- Membership in the summary stream comes from a window entry. -/
theorem mem_stream_mem_entries (fftMag : List ℤ → List ℚ) (data : List ℤ)
    (fft_bin_size overlap box_height box_width maxes_per_box : ℕ)
    (y : ℕ) (x : ℤ)
    (h : (y, x) ∈ summaryStream fftMag data fft_bin_size overlap box_height box_width
      maxes_per_box) :
    ∃ e ∈ windowEntries fftMag data fft_bin_size overlap, e.2.2 = y ∧ (e.2.1 : ℤ) = x := by
  obtain ⟨kv, hkv, hmem⟩ := List.mem_flatMap.mp h
  obtain ⟨e, he, hpack⟩ := List.mem_map.mp hmem
  have he2 : e ∈ kv.2 := by
    have h1 : e ∈ isort intensityGe kv.2 :=
      (List.take_sublist maxes_per_box _).mem he
    exact (perm_isort intensityGe kv.2).mem_iff.mp h1
  rw [mkBoxes_eq_alBuild] at hkv
  have hpts : (kv.1, e) ∈ pts (alBuild ((windowEntries fftMag data fft_bin_size
      overlap).map (fun e => ((e.2.1 / box_width, e.2.2 / box_height), e)))) :=
    List.mem_flatMap.mpr ⟨kv, hkv, List.mem_map.mpr ⟨e, he2, rfl⟩⟩
  have hstream := (mem_pts_alBuild _ _).mp hpts
  obtain ⟨e', he', heq⟩ := List.mem_map.mp hstream
  have hee : e' = e := congrArg Prod.snd heq
  subst hee
  exact ⟨e', he', by rw [show e'.2.2 = (e'.2.2, (e'.2.1 : ℤ)).1 from rfl, hpack],
    by rw [show (e'.2.1 : ℤ) = (e'.2.2, (e'.2.1 : ℤ)).2 from rfl, hpack]⟩

/-- What a window entry looks like: a full window `x` and a bin index `y`
below half the spectrum length. -/
theorem mem_windowEntries (fftMag : List ℤ → List ℚ) (data : List ℤ)
    (fft_bin_size overlap : ℕ) (e : ℚ × ℕ × ℕ)
    (h : e ∈ windowEntries fftMag data fft_bin_size overlap) :
    (windowData data fft_bin_size overlap e.2.1).length = fft_bin_size ∧
    e.2.2 < (fftMag (windowData data fft_bin_size overlap e.2.1)).length / 2 := by
  obtain ⟨x, _, hx⟩ := List.mem_flatMap.mp h
  by_cases hfull : (windowData data fft_bin_size overlap x).length = fft_bin_size
  · rw [if_pos hfull] at hx
    obtain ⟨y, hy, hyx⟩ := List.mem_map.mp hx
    have hx1 : e.2.1 = x := by rw [← hyx]
    have hx2 : e.2.2 = y := by rw [← hyx]
    rw [hx1, hx2]
    exact ⟨hfull, List.mem_range.mp hy⟩
  · rw [if_neg hfull] at hx
    simp at hx

/-! ### C1: the normalization formulas -/

/-- C1: for the normalization applied to a re-centered raw-offset array
`O` and probed durations, `pad_pre[i] = O[i] − min(O)`,
`trim_pre[i] = max(pad_pre) − pad_pre[i]`,
`pad_post[i] = max(pad_pre + orig_duration) − (pad_pre[i] + orig_duration[i])`,
and `trim_post[i] = (orig_duration[i] − trim_pre[i]) − min(orig_duration − trim_pre)`. -/
theorem claim_C1_normalization (O dur : List ℚ) (hlen : dur.length = O.length)
    (i : ℕ) (hi : i < O.length) :
    (mkEditValues O dur).1.getD i 0 = O.getD i 0 - npMin O ∧
    (mkEditValues O dur).2.1.getD i 0
      = npMax (mkEditValues O dur).1 - (mkEditValues O dur).1.getD i 0 ∧
    (mkEditValues O dur).2.2.1.getD i 0
      = npMax (List.zipWith (fun p d => p + d) (mkEditValues O dur).1 dur)
        - ((mkEditValues O dur).1.getD i 0 + dur.getD i 0) ∧
    (mkEditValues O dur).2.2.2.getD i 0
      = (dur.getD i 0 - (mkEditValues O dur).2.1.getD i 0)
        - npMin (List.zipWith (fun d t => d - t) dur (mkEditValues O dur).2.1) := by
  simp only [mkEditValues]
  have hpadlen : (O.map (fun r => r - npMin O)).length = O.length := by simp
  have htrimlen :
      ((O.map (fun r => r - npMin O)).map
        (fun p => -(p - npMax (O.map (fun r => r - npMin O))))).length = O.length := by
    simp
  have h1 : (O.map (fun r => r - npMin O)).getD i 0 = O.getD i 0 - npMin O :=
    getD_map_of_lt O _ i hi 0 0
  refine ⟨h1, ?_, ?_, ?_⟩
  · rw [getD_map_of_lt _ _ i (by omega) 0 0]
    ring
  · rw [getD_map_of_lt _ _ i (by simp; omega) 0 0,
      getD_zipWith_of_lt _ _ _ i (by omega) (by omega) 0 0 0]
  · rw [getD_map_of_lt _ _ i (by simp; omega) 0 0,
      getD_zipWith_of_lt _ _ _ i (by omega) (by omega) 0 0 0,
      getD_map_of_lt _ _ i (by omega) 0 0]

/-- Witness for C1 at `O = [0, 3]`, `dur = [10, 7]`, `i = 0`. -/
theorem claim_C1_normalization_witness :
    (mkEditValues [0, 3] [10, 7]).1.getD 0 0 = ([0, 3] : List ℚ).getD 0 0 - npMin [0, 3] ∧
    (mkEditValues [0, 3] [10, 7]).2.1.getD 0 0
      = npMax (mkEditValues [0, 3] [10, 7]).1 - (mkEditValues [0, 3] [10, 7]).1.getD 0 0 ∧
    (mkEditValues [0, 3] [10, 7]).2.2.1.getD 0 0
      = npMax (List.zipWith (fun p d => p + d) (mkEditValues [0, 3] [10, 7]).1 [10, 7])
        - ((mkEditValues [0, 3] [10, 7]).1.getD 0 0 + ([10, 7] : List ℚ).getD 0 0) ∧
    (mkEditValues [0, 3] [10, 7]).2.2.2.getD 0 0
      = (([10, 7] : List ℚ).getD 0 0 - (mkEditValues [0, 3] [10, 7]).2.1.getD 0 0)
        - npMin (List.zipWith (fun d t => d - t) [10, 7] (mkEditValues [0, 3] [10, 7]).2.1) :=
  claim_C1_normalization [0, 3] [10, 7] rfl 0 (by decide)

/-! ### C5: pad_pre / trim_pre exclusivity -/

/-- C5 counterexample: with three files at re-centered offsets `[0, 1, 2]`
the middle file has `pad_pre = 1` and `trim_pre = 1`, both nonzero —
the claimed per-file exclusivity of `pad_pre`/`trim_pre` fails. -/
theorem claim_C5_counterexample :
    (mkEditValues [0, 1, 2] [10, 10, 10]).1.getD 1 0 ≠ 0 ∧
    (mkEditValues [0, 1, 2] [10, 10, 10]).2.1.getD 1 0 ≠ 0 := by
  norm_num [mkEditValues, npMin, npMax, min_def, max_def]

/-- C5 (amended): `pad_pre[i] = 0` or `trim_pre[i] = 0` holds for every
file whose re-centered offset is minimal or maximal in the run — hence
for every file when there are exactly two files — but not in general. -/
theorem claim_C5_extremal_exclusive (O dur : List ℚ) (i : ℕ) (hi : i < O.length)
    (hext : O.getD i 0 = npMin O ∨ O.getD i 0 = npMax O) :
    (mkEditValues O dur).1.getD i 0 = 0 ∨ (mkEditValues O dur).2.1.getD i 0 = 0 := by
  have hOne : O ≠ [] := by
    intro h
    rw [h] at hi
    simp at hi
  simp only [mkEditValues]
  rcases hext with hmin | hmax
  · left
    rw [getD_map_of_lt O _ i hi 0 0, hmin]
    ring
  · right
    rw [getD_map_of_lt _ _ i (by simp; omega) 0 0,
      npMax_map_sub_const O (npMin O) hOne,
      getD_map_of_lt O _ i hi 0 0, hmax]
    ring

/-- Witness for the amended C5 at `O = [0, 3]`, `i = 1` (the maximal
offset). -/
theorem claim_C5_extremal_exclusive_witness :
    (mkEditValues [0, 3] [10, 7]).1.getD 1 0 = 0 ∨
    (mkEditValues [0, 3] [10, 7]).2.1.getD 1 0 = 0 :=
  claim_C5_extremal_exclusive [0, 3] [10, 7] 1 (by decide) (Or.inr (by decide))

/-! ### C3: the no-match error -/

theorem getLast?_of_ne_nil (l : List α) (h : l ≠ []) : ∃ p, l.getLast? = some p := by
  induction l with
  | nil => exact absurd rfl h
  | cons a t ih =>
    cases t with
    | nil => exact ⟨a, by simp [List.getLast?_singleton]⟩
    | cons b t' =>
      obtain ⟨p, hp⟩ := ih (by simp)
      exact ⟨p, by rw [List.getLast?_cons_cons]; exact hp⟩

/-- For well-formed summaries (all per-bin lists nonempty) with at least
one shared key, the vote histogram is nonempty. -/
theorem delayHist_ne_nil (o s : List (ℕ × List ℤ))
    (ho : ∀ kv ∈ o, kv.2 ≠ []) (hs : ∀ kv ∈ s, kv.2 ≠ [])
    (hne : sharedKeys o s ≠ []) : delayHist o s ≠ [] := by
  obtain ⟨k, hk⟩ := List.exists_mem_of_ne_nil _ hne
  have hks : k ∈ alKeys s := List.mem_of_mem_filter hk
  have hko : k ∈ alKeys o := by simpa using List.of_mem_filter hk
  obtain ⟨Ls, hLs, hfindS⟩ := mem_of_alKeys s k hks
  obtain ⟨Lo, hLo, hfindO⟩ := mem_of_alKeys o k hko
  obtain ⟨xi, hxi⟩ := List.exists_mem_of_ne_nil _ (hs (k, Ls) hLs)
  obtain ⟨xj, hxj⟩ := List.exists_mem_of_ne_nil _ (ho (k, Lo) hLo)
  have hdelta : (xi - xj) ∈ allDeltas o s := by
    unfold allDeltas
    refine List.mem_flatMap.mpr ⟨k, hk, ?_⟩
    refine List.mem_flatMap.mpr ⟨xi, ?_, ?_⟩
    · rw [alGet, hfindS]; simpa using hxi
    · exact List.mem_map.mpr ⟨xj, by rw [alGet, hfindO]; simpa using hxj, rfl⟩
  rw [delayHist_eq_mkHist]
  exact mkHist_ne_nil _ (List.ne_nil_of_mem hdelta)

theorem isort_ne_nil (le : α → α → Bool) (l : List α) (h : l ≠ []) :
    isort le l ≠ [] := by
  intro h0
  have hlen := (perm_isort le l).length_eq
  rw [h0] at hlen
  exact h (List.length_eq_zero.mp hlen.symm)

/-- C3: `_find_delay` raises the no-match error iff the intersection of
the two summaries' key sets is empty; on a nonempty intersection of
well-formed summaries it returns a delay without raising. -/
theorem claim_C3_no_match (o s : List (ℕ × List ℤ))
    (ho : ∀ kv ∈ o, kv.2 ≠ []) (hs : ∀ kv ∈ s, kv.2 ≠ []) :
    (find_delay o s = Except.error FdErr.noMatch ↔ sharedKeys o s = []) ∧
    (sharedKeys o s ≠ [] → ∃ d, find_delay o s = Except.ok d) := by
  constructor
  · constructor
    · intro h
      by_contra hne
      rw [find_delay, if_neg hne] at h
      cases hlast : (isort voteLe (delayHist o s)).getLast? with
      | none =>
        rw [hlast] at h
        exact FdErr.noConfusion (Except.error.inj h)
      | some p =>
        rw [hlast] at h
        exact Except.noConfusion h
    · intro h
      rw [find_delay, if_pos h]
  · intro hne
    obtain ⟨p, hp⟩ := getLast?_of_ne_nil _
      (isort_ne_nil voteLe _ (delayHist_ne_nil o s ho hs hne))
    exact ⟨p.1, by rw [find_delay, if_neg hne, hp]⟩

/-- Witness for C3 at `o = [(0, [0])]`, `s = [(0, [5])]`. -/
theorem claim_C3_no_match_witness :
    (find_delay [(0, [0])] [(0, [5])] = Except.error FdErr.noMatch
        ↔ sharedKeys [(0, [0])] [(0, [5])] = []) ∧
    (sharedKeys [(0, [0])] [(0, [5])] ≠ []
        → ∃ d, find_delay [(0, [0])] [(0, [5])] = Except.ok d) :=
  claim_C3_no_match [(0, [0])] [(0, [5])] (by decide) (by decide)

/-! ### C2: the winning delay and the seconds conversion -/

/-- C2: on summaries with a nonempty key intersection the estimator
returns a delay `d` that is a histogram key of maximal vote count, and the
seconds conversion of `_align` equals `d × (fft_bin_size / rate)`. -/
theorem claim_C2_delay_argmax (o s : List (ℕ × List ℤ)) (rate : ℚ)
    (fft_bin_size : ℕ)
    (ho : ∀ kv ∈ o, kv.2 ≠ []) (hs : ∀ kv ∈ s, kv.2 ≠ [])
    (hne : sharedKeys o s ≠ []) :
    ∃ d c, find_delay o s = Except.ok d ∧ (d, c) ∈ delayHist o s ∧
      (∀ q ∈ delayHist o s, q.2 ≤ c) ∧
      delayInSeconds d rate fft_bin_size
        = (d : ℚ) * ((fft_bin_size : ℚ) / rate) := by
  obtain ⟨p, hp⟩ := getLast?_of_ne_nil _
    (isort_ne_nil voteLe _ (delayHist_ne_nil o s ho hs hne))
  obtain ⟨hmem, hmax⟩ := isort_getLast?_max _ p hp
  refine ⟨p.1, p.2, by rw [find_delay, if_neg hne, hp], hmem, hmax, ?_⟩
  rw [delayInSeconds, samplesPerSec, div_div_eq_mul_div, mul_div_assoc]

/-- Witness for C2 at `o = [(0, [0])]`, `s = [(0, [5])]`, `rate = 3`,
`fft_bin_size = 2`. -/
theorem claim_C2_delay_argmax_witness :
    ∃ d c, find_delay [(0, [0])] [(0, [5])] = Except.ok d ∧
      (d, c) ∈ delayHist [(0, [0])] [(0, [5])] ∧
      (∀ q ∈ delayHist [(0, [0])] [(0, [5])], q.2 ≤ c) ∧
      delayInSeconds d 3 2 = (d : ℚ) * ((2 : ℚ) / 3) := by
  have h := claim_C2_delay_argmax [(0, [0])] [(0, [5])] 3 2
    (by decide) (by decide) (by decide)
  simpa using h

/-! ### C4: the hint refinement -/

theorem alFind_map_of_mem_nodup (l : List ℕ) (v : ℕ → ℚ) (i : ℕ)
    (hnd : l.Nodup) (hmem : i ∈ l) :
    alFind (l.map (fun j => (j, v j))) i = some (v i) := by
  induction l with
  | nil => simp at hmem
  | cons a t ih =>
    rw [List.nodup_cons] at hnd
    rw [List.map_cons]
    by_cases ha : a = i
    · subst ha
      exact alFind_cons_pos a (v a) _
    · rw [alFind_cons_neg _ _ _ _ ha]
      refine ih hnd.2 ?_
      rcases List.mem_cons.mp hmem with rfl | h
      · exact absurd rfl ha
      · exact h

theorem alFind_refineHints (t : List ℚ) (i : ℕ) (hi : i < t.length) :
    alFind (refineHints t) i
      = some (max 0 ((pyInt (t.getD i 0 - 5) : ℤ) : ℚ)) := by
  unfold refineHints
  exact alFind_map_of_mem_nodup (List.range t.length) _ i
    (List.nodup_range _) (List.mem_range.mpr hi)

/-- C4 counterexample: with coarse `trim_pre = [0, 15/2]` the code sets the
hint of file 1 to `max(0.0, int(15/2 − 5.0)) = 2`, whereas the claimed
formula `max(0, trim_pre[1] − 5.0)` gives `5/2 ≠ 2`: the claim omits the
`int(...)` truncation at `align.py` line 204. -/
theorem claim_C4_counterexample :
    refineHints [0, 15/2] = [(0, 0), (1, 2)] ∧
    max (0 : ℚ) ((15 : ℚ)/2 - 5) ≠ 2 := by
  constructor
  · norm_num [refineHints, pyInt, List.range_succ, max_def]
  · norm_num [max_def]

/-- C4 (amended): between the coarse and the fine pass, the orchestrator
sets the known-delay hint of every file `i` to
`max(0, int(coarse_trim_pre[i] − 5.0))` seconds — the truncation toward
zero of the claimed value — and the misalignment bound to 15. -/
theorem claim_C4_hint_refinement {α : Type} [Inhabited α] (det : SyncDetector)
    (env : AVEnv α) (files : List α)
    (fft_bin_size overlap box_height box_width samples_per_box : ℕ)
    (det' : SyncDetector) (out : List (α × EditEntry))
    (hrun : det.align env files fft_bin_size overlap box_height box_width
      samples_per_box = Except.ok (det', out)) :
    ∃ pad trim odur padp trimp,
      det.alignPass env 3675 files fft_bin_size overlap box_height box_width
        samples_per_box = Except.ok (pad, trim, odur, padp, trimp) ∧
      det'.known_delay_ge_map = refineHints trim ∧
      det'.max_misalignment = 15 ∧
      ∀ i, i < trim.length →
        alFind det'.known_delay_ge_map i
          = some (max 0 ((pyInt (trim.getD i 0 - 5) : ℤ) : ℚ)) := by
  unfold SyncDetector.align at hrun
  cases hc : det.alignPass env 3675 files fft_bin_size overlap box_height box_width
      samples_per_box with
  | error e =>
    rw [hc] at hrun
    exact Except.noConfusion hrun
  | ok c =>
    rw [hc] at hrun
    simp only at hrun
    cases hf : SyncDetector.alignPass
        { det with known_delay_ge_map := refineHints c.2.1, max_misalignment := 15 }
        env det.sample_rate files fft_bin_size overlap box_height box_width
        samples_per_box with
    | error e =>
      rw [hf] at hrun
      exact Except.noConfusion hrun
    | ok f =>
      rw [hf] at hrun
      obtain ⟨h1, _⟩ := Prod.mk.injEq .. ▸ Except.ok.inj hrun
      obtain ⟨pad, trim, odur, padp, trimp⟩ := c
      refine ⟨pad, trim, odur, padp, trimp, rfl, ?_, ?_, ?_⟩
      · rw [← h1]
      · rw [← h1]
      · intro i hi
        rw [← h1]
        exact alFind_refineHints trim i hi

/-! ### C8: handling of the known-delay hints -/

theorem alFind_nil [DecidableEq K] (k : K) : alFind ([] : List (K × V)) k = none := rfl

theorem alFind_filter_lt (m : HintMap) (n i : ℕ) (hi : i < n) :
    alFind (m.filter (fun p => decide (p.1 < n))) i = alFind m i := by
  induction m with
  | nil => rfl
  | cons hd t ih =>
    obtain ⟨k, v⟩ := hd
    by_cases hk : k < n
    · rw [List.filter_cons_of_pos (by simpa using hk)]
      by_cases hki : k = i
      · subst hki
        rw [alFind_cons_pos, alFind_cons_pos]
      · rw [alFind_cons_neg _ _ _ _ hki, alFind_cons_neg _ _ _ _ hki]
        exact ih
    · rw [List.filter_cons_of_neg (by simpa using hk)]
      have hki : k ≠ i := by omega
      rw [alFind_cons_neg _ _ _ _ hki]
      exact ih

theorem foldl_congr_of_eq {β : Type} (f g : β → ℕ → β) (l : List ℕ) (init : β)
    (h : ∀ b : β, ∀ i ∈ l, f b i = g b i) : l.foldl f init = l.foldl g init := by
  induction l generalizing init with
  | nil => rfl
  | cons a t ih =>
    rw [List.foldl_cons, List.foldl_cons, h init a (List.mem_cons_self a t)]
    exact ih _ (fun b i hi => h b i (List.mem_cons_of_mem _ hi))

theorem recenterLoop_congr (result : List ℚ) (m₁ m₂ : HintMap)
    (h : ∀ i ∈ List.range result.length, alFind m₁ i = alFind m₂ i) :
    recenterLoop result m₁ = recenterLoop result m₂ := by
  unfold recenterLoop
  refine foldl_congr_of_eq _ _ _ _ (fun b i hi => ?_)
  rw [h i hi]

theorem recenterLoop_of_none (result : List ℚ) (m : HintMap)
    (h : ∀ i ∈ List.range result.length, alFind m i = none) :
    recenterLoop result m = result := by
  unfold recenterLoop
  suffices hgen : ∀ (l : List ℕ) (init : List ℚ), (∀ i ∈ l, alFind m i = none) →
      l.foldl (fun res i =>
        match alFind m i with
        | some v =>
          let r1 := res.map (fun z => z + v)
          r1.set i (r1.getD i 0 - v)
        | none => res) init = init by
    exact hgen _ result h
  intro l
  induction l with
  | nil => intro init _; rfl
  | cons a t ih =>
    intro init hl
    rw [List.foldl_cons]
    have ha := hl a (List.mem_cons_self a t)
    simp only [ha]
    exact ih init (fun i hi => hl i (List.mem_cons_of_mem _ hi))

/-- C8 (amended): an out-of-range file index in the known-delay map is
not validated and raises nothing: re-centering is unchanged if the map is
restricted to in-range keys, and every in-range lookup (in particular the
extraction offset `map.get(idx, 0)`) ignores out-of-range entries. -/
theorem claim_C8_out_of_range_hints (result : List ℚ) (m : HintMap) :
    recenter result m
      = recenter result (m.filter (fun p => decide (p.1 < result.length))) ∧
    ∀ i, i < result.length →
      alFind (m.filter (fun p => decide (p.1 < result.length))) i = alFind m i := by
  refine ⟨?_, fun i hi => alFind_filter_lt m result.length i hi⟩
  by_cases hm : m = []
  · subst hm
    rfl
  · have hm' : m.isEmpty = false := by
      cases m with
      | nil => exact absurd rfl hm
      | cons a t => rfl
    by_cases hf : m.filter (fun p => decide (p.1 < result.length)) = []
    · rw [recenter, recenter, hm', hf]
      simp only [List.isEmpty_nil, if_true, Bool.false_eq_true, if_false]
      refine recenterLoop_of_none result m (fun i hi => ?_)
      rw [← alFind_filter_lt m result.length i (List.mem_range.mp hi), hf]
      rfl
    · have hf' : (m.filter (fun p => decide (p.1 < result.length))).isEmpty = false := by
        cases hcase : m.filter (fun p => decide (p.1 < result.length)) with
        | nil => exact absurd hcase hf
        | cons a t => rfl
      rw [recenter, recenter, hm', hf']
      simp only [Bool.false_eq_true, if_false]
      exact recenterLoop_congr result m _
        (fun i hi => (alFind_filter_lt m result.length i (List.mem_range.mp hi)).symm)

/-- Witness for the amended C8 at `result = [0, 3]`,
`m = [(5, 100)]` (an out-of-range hint key). -/
theorem claim_C8_out_of_range_hints_witness :
    (recenter [0, 3] [(5, 100)]
      = recenter [0, 3] (([(5, 100)] : HintMap).filter
          (fun p => decide (p.1 < ([0, 3] : List ℚ).length)))) ∧
    alFind (([(5, 100)] : HintMap).filter
      (fun p => decide (p.1 < ([0, 3] : List ℚ).length))) 0
        = alFind [(5, 100)] 0 :=
  ⟨(claim_C8_out_of_range_hints [0, 3] [(5, 100)]).1,
   (claim_C8_out_of_range_hints [0, 3] [(5, 100)]).2 0 (by decide)⟩

/-! ### C6: windowing and dropped windows -/

/-- A concrete stand-in for the external magnitude spectrum in concrete
runs: the samples themselves, cast to `ℚ` (length-preserving, like
`np.abs(np.fft.fft(...))`). -/
def castMag : List ℤ → List ℚ := fun l => l.map (fun z : ℤ => (z : ℚ))

/-- C6 counterexample: with `fft_bin_size = 2`, `overlap = 1` and
`data = [5, 7]`, the very first window (`j = -1 < 0`) is clamped by
`max(0, j)` to `data[0:2] = [5, 7]` — full length, not shorter — and it
contributes a spectrum: window time 0 appears in the summary at bin 0,
contradicting the claim that it is dropped. -/
theorem claim_C6_counterexample :
    windowData [5, 7] 2 1 0 = [5, 7] ∧
    (0 : ℤ) ∈ alGet (mk_freq_trans_summary castMag [5, 7] 2 1 1 1 7) 0 := by
  constructor
  · rfl
  · decide

/-- C6 (amended): windowing starts at `−overlap` and steps by
`fft_bin_size − overlap`, but each window's start is clamped by
`max(0, j)`; a window is dropped (contributes no spectrum) iff fewer than
`fft_bin_size` samples remain from the clamped start. Every time recorded
in the summary is a window index whose clamped slice is full; the first
window reads `data[0:fft_bin_size]` and is kept whenever the data holds at
least `fft_bin_size` samples. -/
theorem claim_C6_windowing (fftMag : List ℤ → List ℚ) (data : List ℤ)
    (fft_bin_size overlap box_height box_width maxes_per_box : ℕ) :
    (∀ kv ∈ mk_freq_trans_summary fftMag data fft_bin_size overlap box_height
        box_width maxes_per_box, ∀ x ∈ kv.2,
      ∃ xw : ℕ, x = (xw : ℤ) ∧
        (windowData data fft_bin_size overlap xw).length = fft_bin_size) ∧
    (fft_bin_size ≤ data.length →
      windowData data fft_bin_size overlap 0 = data.take fft_bin_size ∧
      (windowData data fft_bin_size overlap 0).length = fft_bin_size) := by
  constructor
  · intro kv hkv x hx
    have hstream : (kv.1, x) ∈ summaryStream fftMag data fft_bin_size overlap
        box_height box_width maxes_per_box :=
      mem_summary_mem_stream fftMag data fft_bin_size overlap box_height box_width
        maxes_per_box kv.1 kv.2 x (by rwa [Prod.mk.eta]) hx
    obtain ⟨e, he, _, hex⟩ := mem_stream_mem_entries fftMag data fft_bin_size overlap
      box_height box_width maxes_per_box kv.1 x hstream
    obtain ⟨hfull, _⟩ := mem_windowEntries fftMag data fft_bin_size overlap e he
    exact ⟨e.2.1, hex.symm, hfull⟩
  · intro hlen
    have h0 : windowData data fft_bin_size overlap 0 = data.take fft_bin_size := by
      unfold windowData
      simp
    refine ⟨h0, ?_⟩
    rw [h0]
    simp [hlen]

/-- Witness for the amended C6 at `data = [5, 7]`, `fft_bin_size = 2`,
`overlap = 1`. -/
theorem claim_C6_windowing_witness :
    (∀ kv ∈ mk_freq_trans_summary castMag [5, 7] 2 1 1 1 7, ∀ x ∈ kv.2,
      ∃ xw : ℕ, x = (xw : ℤ) ∧ (windowData [5, 7] 2 1 xw).length = 2) ∧
    (windowData [5, 7] 2 1 0 = ([5, 7] : List ℤ).take 2 ∧
      (windowData [5, 7] 2 1 0).length = 2) :=
  ⟨(claim_C6_windowing castMag [5, 7] 2 1 1 1 7).1,
   (claim_C6_windowing castMag [5, 7] 2 1 1 1 7).2 (by decide)⟩

/-! ### C7: frequency keys below half the bin size -/

/-- C7: for any waveform, FFT parameters and any length-preserving
magnitude spectrum, every frequency key of the summary lies in
`[0, fft_bin_size / 2)` (stated as `2 * y < fft_bin_size`, which over the
reals is exactly `y < fft_bin_size / 2`; keys are `ℕ`, hence `≥ 0`). -/
theorem claim_C7_key_range (fftMag : List ℤ → List ℚ) (data : List ℤ)
    (fft_bin_size overlap box_height box_width maxes_per_box : ℕ)
    (hLen : ∀ l, (fftMag l).length = l.length) :
    ∀ y ∈ alKeys (mk_freq_trans_summary fftMag data fft_bin_size overlap box_height
      box_width maxes_per_box), 2 * y < fft_bin_size := by
  intro y hy
  rw [mk_freq_eq_alBuild] at hy
  obtain ⟨x, hx⟩ := (mem_alKeys_alBuild _ _).mp hy
  obtain ⟨e, he, hey, _⟩ := mem_stream_mem_entries fftMag data fft_bin_size overlap
    box_height box_width maxes_per_box y x hx
  obtain ⟨hfull, hybound⟩ := mem_windowEntries fftMag data fft_bin_size overlap e he
  rw [hLen, hfull] at hybound
  rw [← hey]
  omega

/-- Witness for C7 at `data = [5, 7]`, `fft_bin_size = 2`, `overlap = 1`,
with the length-preserving `castMag`: the key 0 of the summary satisfies
the bound. -/
theorem claim_C7_key_range_witness :
    0 ∈ alKeys (mk_freq_trans_summary castMag [5, 7] 2 1 1 1 7) ∧ 2 * 0 < 2 :=
  ⟨by decide,
   claim_C7_key_range castMag [5, 7] 2 1 1 1 7 (fun l => List.length_map l _) 0
     (by decide)⟩

/-! ### C9: order preservation -/

theorem getD_range (n i : ℕ) (hi : i < n) (d : ℕ) : (List.range n).getD i d = i := by
  rw [List.getD_eq_getElem?_getD, List.getElem?_range hi]
  rfl

/-- C9: whenever `align` returns a list, it has exactly one record per
input file and the `i`-th entry is the record for the `i`-th input file. -/
theorem claim_C9_order {α : Type} [Inhabited α] (det : SyncDetector)
    (env : AVEnv α) (files : List α)
    (fft_bin_size overlap box_height box_width samples_per_box : ℕ)
    (det' : SyncDetector) (out : List (α × EditEntry))
    (hn : 2 ≤ files.length)
    (hrun : det.align env files fft_bin_size overlap box_height box_width
      samples_per_box = Except.ok (det', out)) :
    out.length = files.length ∧
    ∀ i, i < files.length → (out.getD i default).1 = files.getD i default := by
  unfold SyncDetector.align at hrun
  cases hc : det.alignPass env 3675 files fft_bin_size overlap box_height box_width
      samples_per_box with
  | error e =>
    rw [hc] at hrun
    exact Except.noConfusion hrun
  | ok c =>
    rw [hc] at hrun
    simp only at hrun
    cases hf : SyncDetector.alignPass
        { det with known_delay_ge_map := refineHints c.2.1, max_misalignment := 15 }
        env det.sample_rate files fft_bin_size overlap box_height box_width
        samples_per_box with
    | error e =>
      rw [hf] at hrun
      exact Except.noConfusion hrun
    | ok f =>
      rw [hf] at hrun
      obtain ⟨_, h2⟩ := Prod.mk.injEq .. ▸ Except.ok.inj hrun
      subst h2
      constructor
      · simp
      · intro i hi
        rw [getD_map_of_lt _ _ i (by simpa using hi) default 0, getD_range _ i hi 0]

/-! ### C10: self-estimation returns zero lag -/

theorem nodup_alKeys_summary (fftMag : List ℤ → List ℚ) (data : List ℤ)
    (fft_bin_size overlap box_height box_width maxes_per_box : ℕ) :
    (alKeys (mk_freq_trans_summary fftMag data fft_bin_size overlap box_height
      box_width maxes_per_box)).Nodup := by
  rw [mk_freq_eq_alBuild]
  exact nodup_alKeys_alBuild _

theorem vals_ne_nil_summary (fftMag : List ℤ → List ℚ) (data : List ℤ)
    (fft_bin_size overlap box_height box_width maxes_per_box : ℕ) :
    ∀ kv ∈ mk_freq_trans_summary fftMag data fft_bin_size overlap box_height
      box_width maxes_per_box, kv.2 ≠ [] := by
  rw [mk_freq_eq_alBuild]
  exact vals_ne_nil_alBuild _

/-- The `(bin, window)` pairs of the entry stream are pairwise distinct:
each spectral point is generated exactly once. -/
theorem nodup_windowEntries_pack (fftMag : List ℤ → List ℚ) (data : List ℤ)
    (fft_bin_size overlap : ℕ) :
    ((windowEntries fftMag data fft_bin_size overlap).map
      (fun e => (e.2.2, (e.2.1 : ℤ)))).Nodup := by
  unfold windowEntries
  rw [List.map_flatMap]
  refine nodup_flatMap_of_disjoint _ _ (fun p : ℕ × ℤ => p.2.toNat)
    (List.nodup_range _) ?_ ?_
  · intro x _
    by_cases hfull : (windowData data fft_bin_size overlap x).length = fft_bin_size
    · rw [if_pos hfull, List.map_map]
      exact ((List.nodup_range _).map
        (fun a b hab => congrArg Prod.fst hab))
    · rw [if_neg hfull]
      simp
  · intro x _ b hb
    by_cases hfull : (windowData data fft_bin_size overlap x).length = fft_bin_size
    · rw [if_pos hfull, List.map_map] at hb
      obtain ⟨y, _, hy⟩ := List.mem_map.mp hb
      rw [← hy]
      exact Int.toNat_natCast x
    · rw [if_neg hfull] at hb
      simp at hb

/-- Each `(bin, window)` pair is retained at most once in the summary. -/
theorem count_summaryStream_le_one (fftMag : List ℤ → List ℚ) (data : List ℤ)
    (fft_bin_size overlap box_height box_width maxes_per_box : ℕ) (p : ℕ × ℤ) :
    (summaryStream fftMag data fft_bin_size overlap box_height box_width
      maxes_per_box).count p ≤ 1 := by
  have hQ : ∀ (l : List (ℚ × ℕ × ℕ)),
      (l.map (fun e => (e.2.2, (e.2.1 : ℤ)))).count p
        = l.countP (fun e => (e.2.2, (e.2.1 : ℤ)) == p) := by
    intro l
    rw [List.count_eq_countP, List.countP_map]
    rfl
  calc (summaryStream fftMag data fft_bin_size overlap box_height box_width
        maxes_per_box).count p
      = ((mkBoxes fftMag data fft_bin_size overlap box_height box_width).map
          (fun kv => (((isort intensityGe kv.2).take maxes_per_box).map
            (fun e => (e.2.2, (e.2.1 : ℤ)))).count p)).sum := by
        rw [summaryStream, count_flatMap_eq]
    _ ≤ ((mkBoxes fftMag data fft_bin_size overlap box_height box_width).map
          (fun kv => kv.2.countP (fun e => (e.2.2, (e.2.1 : ℤ)) == p))).sum := by
        refine List.sum_le_sum (fun kv _ => ?_)
        rw [hQ]
        calc ((isort intensityGe kv.2).take maxes_per_box).countP
              (fun e => (e.2.2, (e.2.1 : ℤ)) == p)
            ≤ (isort intensityGe kv.2).countP
              (fun e => (e.2.2, (e.2.1 : ℤ)) == p) :=
              (List.take_sublist _ _).countP_le _
          _ = kv.2.countP (fun e => (e.2.2, (e.2.1 : ℤ)) == p) :=
              (perm_isort intensityGe kv.2).countP_eq _
    _ = (pts (mkBoxes fftMag data fft_bin_size overlap box_height box_width)).countP
          (fun q => (q.2.2.2, (q.2.2.1 : ℤ)) == p) := by
        rw [pts, countP_flatMap_eq]
        congr 1
        refine List.map_congr_left (fun kv _ => ?_)
        rw [List.countP_map]
        rfl
    _ = ((windowEntries fftMag data fft_bin_size overlap).map
          (fun e => ((e.2.1 / box_width, e.2.2 / box_height), e))).countP
          (fun q => (q.2.2.2, (q.2.2.1 : ℤ)) == p) := by
        rw [mkBoxes_eq_alBuild, countP_pts_alBuild]
    _ = (windowEntries fftMag data fft_bin_size overlap).countP
          (fun e => (e.2.2, (e.2.1 : ℤ)) == p) := by
        rw [List.countP_map]
        rfl
    _ = ((windowEntries fftMag data fft_bin_size overlap).map
          (fun e => (e.2.2, (e.2.1 : ℤ)))).count p := (hQ _).symm
    _ ≤ 1 := count_le_one_of_nodup _
        (nodup_windowEntries_pack fftMag data fft_bin_size overlap) p

/-- Every per-bin time list of a built summary is duplicate-free. -/
theorem vals_nodup_summary (fftMag : List ℤ → List ℚ) (data : List ℤ)
    (fft_bin_size overlap box_height box_width maxes_per_box : ℕ) :
    ∀ kv ∈ mk_freq_trans_summary fftMag data fft_bin_size overlap box_height
      box_width maxes_per_box, kv.2.Nodup := by
  intro kv hkv
  refine nodup_of_count_le_one _ (fun x => ?_)
  calc kv.2.count x
      ≤ (pts (mk_freq_trans_summary fftMag data fft_bin_size overlap box_height
          box_width maxes_per_box)).count (kv.1, x) :=
        count_val_le_count_pts _ kv.1 kv.2 x (by rwa [Prod.mk.eta])
    _ = (summaryStream fftMag data fft_bin_size overlap box_height box_width
          maxes_per_box).count (kv.1, x) := by
        rw [mk_freq_eq_alBuild, count_pts_alBuild]
    _ ≤ 1 := count_summaryStream_le_one fftMag data fft_bin_size overlap box_height
        box_width maxes_per_box (kv.1, x)

/-- Diagonal votes: on a duplicate-free list, the pair loop casts exactly
one zero-lag vote per element. -/
theorem count_zero_pairs (L : List ℤ) (hnd : L.Nodup) :
    (L.flatMap (fun xi => L.map (fun xj => xi - xj))).count 0 = L.length := by
  rw [count_flatMap_eq]
  have hone : ∀ xi ∈ L, (L.map (fun xj => xi - xj)).count 0 = 1 := by
    intro xi hxi
    rw [List.count_eq_countP, List.countP_map]
    have hcong : (L.countP ((fun x => x == (0 : ℤ)) ∘ fun xj => xi - xj))
        = L.countP (fun x => x == xi) := by
      refine List.countP_congr (fun xj _ => ?_)
      simp only [Function.comp, beq_iff_eq, sub_eq_zero]
      exact eq_comm
    rw [hcong, ← List.count_eq_countP]
    have h1 := count_le_one_of_nodup L hnd xi
    have h2 : 0 < L.count xi := List.count_pos_iff.mpr hxi
    omega
  rw [List.map_congr_left hone, sum_map_one]

/-- Off-diagonal votes: for `d ≠ 0` the pair loop casts strictly fewer
than `L.length` votes at lag `d`. -/
theorem count_nonzero_pairs_lt (L : List ℤ) (hnd : L.Nodup) (hne : L ≠ [])
    (d : ℤ) (hd : d ≠ 0) :
    (L.flatMap (fun xi => L.map (fun xj => xi - xj))).count d < L.length := by
  rw [count_flatMap_eq]
  have hterm : ∀ xi ∈ L, (L.map (fun xj => xi - xj)).count d = L.count (xi - d) := by
    intro xi _
    rw [List.count_eq_countP, List.countP_map, List.count_eq_countP]
    refine List.countP_congr (fun xj _ => ?_)
    simp only [Function.comp, beq_iff_eq]
    omega
  rw [List.map_congr_left hterm]
  have hle : ∀ xi ∈ L, L.count (xi - d) ≤ 1 :=
    fun xi _ => count_le_one_of_nodup L hnd _
  have hstrict : ∃ x0 ∈ L, L.count (x0 - d) = 0 := by
    by_cases hdpos : 0 < d
    · refine ⟨npMin L, npMin_mem L hne, List.count_eq_zero.mpr (fun hmem => ?_)⟩
      have := npMin_le L _ hmem
      omega
    · refine ⟨npMax L, npMax_mem L hne, List.count_eq_zero.mpr (fun hmem => ?_)⟩
      have := le_npMax L _ hmem
      omega
  obtain ⟨x0, hx0, hzero⟩ := hstrict
  calc (L.map (fun xi => L.count (xi - d))).sum
      < (L.map (fun _ => 1)).sum :=
        List.sum_lt_sum _ _ hle ⟨x0, hx0, by rw [hzero]; omega⟩
    _ = L.length := sum_map_one L

/-- C10: estimating a nonempty built summary against itself returns lag 0;
the zero-lag vote count equals the total number of retained points and
strictly exceeds every other lag's votes. -/
theorem claim_C10_self_delay (fftMag : List ℤ → List ℚ) (data : List ℤ)
    (fft_bin_size overlap box_height box_width maxes_per_box : ℕ)
    (s : List (ℕ × List ℤ))
    (hs : s = mk_freq_trans_summary fftMag data fft_bin_size overlap box_height
      box_width maxes_per_box)
    (hne : s ≠ []) :
    find_delay s s = Except.ok 0 ∧
    histGet (delayHist s s) 0 = (s.map (fun kv => kv.2.length)).sum ∧
    ∀ q ∈ delayHist s s, q.1 ≠ 0 → q.2 < histGet (delayHist s s) 0 := by
  have keysN : (alKeys s).Nodup := by
    rw [hs]; exact nodup_alKeys_summary _ _ _ _ _ _ _
  have valsNE : ∀ kv ∈ s, kv.2 ≠ [] := by
    rw [hs]; exact vals_ne_nil_summary _ _ _ _ _ _ _
  have valsND : ∀ kv ∈ s, kv.2.Nodup := by
    rw [hs]; exact vals_nodup_summary _ _ _ _ _ _ _
  have hshared : sharedKeys s s = alKeys s := by
    unfold sharedKeys
    exact List.filter_eq_self.mpr (fun k hk => by simpa using hk)
  have hbin : ∀ k ∈ alKeys s, alGet s k ≠ [] ∧ (alGet s k).Nodup := by
    intro k hk
    obtain ⟨L, hLmem, hfind⟩ := mem_of_alKeys s k hk
    have hget : alGet s k = L := by simp [alGet, hfind]
    rw [hget]
    exact ⟨valsNE (k, L) hLmem, valsND (k, L) hLmem⟩
  have hkeys_ne : alKeys s ≠ [] := by
    cases s with
    | nil => exact absurd rfl hne
    | cons kv t => simp [alKeys_cons]
  have hcount : ∀ d : ℤ, (allDeltas s s).count d
      = ((alKeys s).map (fun k => ((alGet s k).flatMap (fun xi =>
          (alGet s k).map (fun xj => xi - xj))).count d)).sum := by
    intro d
    rw [allDeltas, hshared, count_flatMap_eq]
  have hzero_sum : (allDeltas s s).count 0 = (s.map (fun kv => kv.2.length)).sum := by
    rw [hcount 0]
    have h1 : ((alKeys s).map (fun k => ((alGet s k).flatMap (fun xi =>
        (alGet s k).map (fun xj => xi - xj))).count 0)).sum
          = ((alKeys s).map (fun k => (alGet s k).length)).sum := by
      congr 1
      exact List.map_congr_left (fun k hk => count_zero_pairs _ (hbin k hk).2)
    rw [h1]
    unfold alKeys
    rw [List.map_map]
    congr 1
    refine List.map_congr_left (fun kv hkv => ?_)
    have hget := alGet_of_mem_nodup s kv.1 kv.2 keysN (by rwa [Prod.mk.eta])
    show (alGet s kv.1).length = kv.2.length
    rw [hget]
  have hlt : ∀ d : ℤ, d ≠ 0 → (allDeltas s s).count d < (allDeltas s s).count 0 := by
    intro d hd
    rw [hcount d, hzero_sum]
    obtain ⟨k0, hk0⟩ := List.exists_mem_of_ne_nil _ hkeys_ne
    have hsum2 : (s.map (fun kv => kv.2.length)).sum
        = ((alKeys s).map (fun k => (alGet s k).length)).sum := by
      unfold alKeys
      rw [List.map_map]
      congr 1
      refine List.map_congr_left (fun kv hkv => ?_)
      have hget := alGet_of_mem_nodup s kv.1 kv.2 keysN (by rwa [Prod.mk.eta])
      show kv.2.length = (alGet s kv.1).length
      rw [hget]
    rw [hsum2]
    refine List.sum_lt_sum _ _ (fun k hk => ?_) ⟨k0, hk0, ?_⟩
    · exact le_of_lt (count_nonzero_pairs_lt _ (hbin k hk).2 (hbin k hk).1 d hd)
    · exact count_nonzero_pairs_lt _ (hbin k0 hk0).2 (hbin k0 hk0).1 d hd
  have h0mem : (0 : ℤ) ∈ allDeltas s s := by
    obtain ⟨k0, hk0⟩ := List.exists_mem_of_ne_nil _ hkeys_ne
    obtain ⟨xi, hxi⟩ := List.exists_mem_of_ne_nil _ (hbin k0 hk0).1
    unfold allDeltas
    refine List.mem_flatMap.mpr ⟨k0, by rwa [hshared], ?_⟩
    refine List.mem_flatMap.mpr ⟨xi, hxi, ?_⟩
    exact List.mem_map.mpr ⟨xi, hxi, by omega⟩
  have hhist := delayHist_eq_mkHist s s
  have hhist_ne : delayHist s s ≠ [] := by
    rw [hhist]
    exact mkHist_ne_nil _ (List.ne_nil_of_mem h0mem)
  have hg0 : histGet (delayHist s s) 0 = (allDeltas s s).count 0 := by
    rw [hhist, histGet_mkHist]
  refine ⟨?_, by rw [hg0, hzero_sum], ?_⟩
  · obtain ⟨p, hp⟩ := getLast?_of_ne_nil _ (isort_ne_nil voteLe _ hhist_ne)
    obtain ⟨hpmem, hpmax⟩ := isort_getLast?_max _ p hp
    have hpcount : p.2 = (allDeltas s s).count p.1 := by
      rw [hhist] at hpmem
      exact mem_mkHist_count _ _ _ hpmem
    have h0key : (0 : ℤ) ∈ alKeys (delayHist s s) := by
      rw [hhist]
      exact (mem_alKeys_mkHist _ _).mpr h0mem
    obtain ⟨c0, hc0mem, _⟩ := mem_of_alKeys _ _ h0key
    have hc0 : c0 = (allDeltas s s).count 0 := by
      rw [hhist] at hc0mem
      exact mem_mkHist_count _ _ _ hc0mem
    have hp1 : p.1 = 0 := by
      by_contra hp1
      have h1 : p.2 < (allDeltas s s).count 0 := by
        rw [hpcount]
        exact hlt p.1 hp1
      have h2 : c0 ≤ p.2 := hpmax (0, c0) hc0mem
      omega
    have hshared_ne : sharedKeys s s ≠ [] := by
      rw [hshared]
      exact hkeys_ne
    rw [find_delay, if_neg hshared_ne, hp]
    show Except.ok p.1 = Except.ok 0
    rw [hp1]
  · intro q hq hq1
    have hqcount : q.2 = (allDeltas s s).count q.1 := by
      rw [hhist] at hq
      exact mem_mkHist_count _ _ _ hq
    rw [hg0, hqcount]
    exact hlt q.1 hq1

/-- Witness for C10 at `data = [5, 7]`, `fft_bin_size = 2`, `overlap = 1`,
where the built summary is `[(0, [0, 1])]`. -/
theorem claim_C10_self_delay_witness :
    find_delay [(0, [0, 1])] [(0, [0, 1])] = Except.ok 0 ∧
    histGet (delayHist [(0, [0, 1])] [(0, [0, 1])]) 0
      = (([(0, [0, 1])] : List (ℕ × List ℤ)).map (fun kv => kv.2.length)).sum ∧
    ∀ q ∈ delayHist [(0, [0, 1])] [(0, [0, 1])], q.1 ≠ 0 →
      q.2 < histGet (delayHist [(0, [0, 1])] [(0, [0, 1])]) 0 :=
  claim_C10_self_delay castMag [5, 7] 2 1 1 1 7 [(0, [0, 1])] (by decide) (by decide)

/-! ### A concrete run of the orchestrator -/

/-- A concrete environment: every decode yields the two-sample waveform
`[5, 7]` at rate 4, every probe reports duration 10, and the magnitude
spectrum is `castMag`. -/
def envW : AVEnv ℕ where
  decode := fun _ _ _ _ => (4, [5, 7])
  probe := fun _ => 10
  fftMag := castMag

theorem envW_summary : mk_freq_trans_summary castMag [5, 7] 2 0 1 1 7 = [(0, [0])] := by
  decide

theorem envW_find_delay : find_delay [(0, [0])] [(0, [0])] = Except.ok 0 := rfl

theorem envW_seconds : delayInSeconds 0 4 2 = 0 := by
  norm_num [delayInSeconds, samplesPerSec]

theorem envW_pass_coarse :
    SyncDetector.alignPass ⟨120, 48000, []⟩ envW 3675 [0, 1] 2 0 1 1 7
      = Except.ok ([0, 0], [0, 0], [10, 10], [0, 0], [0, 0]) := by
  norm_num [SyncDetector.alignPass, SyncDetector.each, SyncDetector.extract, envW,
    exceptMapList, envW_summary, envW_find_delay, envW_seconds, Except.map,
    recenter, recenterLoop, alFind, mkEditValues, npMin, npMax, min_def, max_def,
    List.range_succ, List.range_zero]

theorem envW_pass_fine :
    SyncDetector.alignPass ⟨15, 48000, [(0, 0), (1, 0)]⟩ envW 48000 [0, 1] 2 0 1 1 7
      = Except.ok ([0, 0], [0, 0], [10, 10], [0, 0], [0, 0]) := by
  norm_num [SyncDetector.alignPass, SyncDetector.each, SyncDetector.extract, envW,
    exceptMapList, envW_summary, envW_find_delay, envW_seconds, Except.map,
    recenter, recenterLoop, alFind, List.find?, mkEditValues, npMin, npMax, min_def,
    max_def, List.range_succ, List.range_zero]

theorem envW_refine : refineHints [0, 0] = [(0, 0), (1, 0)] := by
  norm_num [refineHints, pyInt, List.range_succ, List.range_zero,
    max_def]

theorem envW_align :
    SyncDetector.align ⟨120, 48000, []⟩ envW [0, 1] 2 0 1 1 7
      = Except.ok (⟨15, 48000, [(0, 0), (1, 0)]⟩,
          [(0, ⟨0, 0, 10, 0, 0⟩), (1, ⟨0, 0, 10, 0, 0⟩)]) := by
  simp only [SyncDetector.align, envW_pass_coarse, envW_refine, envW_pass_fine]
  norm_num [List.range_succ, List.range_zero]

theorem envW_pass_coarse_oor :
    SyncDetector.alignPass ⟨120, 48000, [(5, 100)]⟩ envW 3675 [0, 1] 2 0 1 1 7
      = Except.ok ([0, 0], [0, 0], [10, 10], [0, 0], [0, 0]) := by
  norm_num [SyncDetector.alignPass, SyncDetector.each, SyncDetector.extract, envW,
    exceptMapList, envW_summary, envW_find_delay, envW_seconds, Except.map,
    recenter, recenterLoop, alFind, List.find?, mkEditValues, npMin, npMax, min_def,
    max_def, List.range_succ, List.range_zero]

theorem envW_align_oor :
    SyncDetector.align ⟨120, 48000, [(5, 100)]⟩ envW [0, 1] 2 0 1 1 7
      = Except.ok (⟨15, 48000, [(0, 0), (1, 0)]⟩,
          [(0, ⟨0, 0, 10, 0, 0⟩), (1, ⟨0, 0, 10, 0, 0⟩)]) := by
  simp only [SyncDetector.align, envW_pass_coarse_oor, envW_refine, envW_pass_fine]
  norm_num [List.range_succ, List.range_zero]

/-- C8 counterexample: a run whose known-delay map references file index 5
— out of range for the 2-file input — completes normally and returns an
edit list: no error of any kind is raised, before decoding or at all,
contradicting the claimed `InvalidHintError`. -/
theorem claim_C8_counterexample :
    (5, (100 : ℚ)) ∈ ([(5, 100)] : HintMap) ∧ ([0, 1] : List ℕ).length ≤ 5 ∧
    SyncDetector.align ⟨120, 48000, [(5, 100)]⟩ envW [0, 1] 2 0 1 1 7
      = Except.ok (⟨15, 48000, [(0, 0), (1, 0)]⟩,
          [(0, ⟨0, 0, 10, 0, 0⟩), (1, ⟨0, 0, 10, 0, 0⟩)]) :=
  ⟨by decide, by decide, envW_align_oor⟩

/-- Witness for the amended C4 on the concrete run `envW_align`. -/
theorem claim_C4_hint_refinement_witness :
    ∃ pad trim odur padp trimp,
      SyncDetector.alignPass ⟨120, 48000, []⟩ envW 3675 [0, 1] 2 0 1 1 7
        = Except.ok (pad, trim, odur, padp, trimp) ∧
      (⟨15, 48000, [(0, 0), (1, 0)]⟩ : SyncDetector).known_delay_ge_map
        = refineHints trim ∧
      (⟨15, 48000, [(0, 0), (1, 0)]⟩ : SyncDetector).max_misalignment = 15 ∧
      ∀ i, i < trim.length →
        alFind (⟨15, 48000, [(0, 0), (1, 0)]⟩ : SyncDetector).known_delay_ge_map i
          = some (max 0 ((pyInt (trim.getD i 0 - 5) : ℤ) : ℚ)) :=
  claim_C4_hint_refinement ⟨120, 48000, []⟩ envW [0, 1] 2 0 1 1 7
    ⟨15, 48000, [(0, 0), (1, 0)]⟩
    [(0, ⟨0, 0, 10, 0, 0⟩), (1, ⟨0, 0, 10, 0, 0⟩)] envW_align

/-- Witness for C9 on the concrete run `envW_align`. -/
theorem claim_C9_order_witness :
    ([(0, (⟨0, 0, 10, 0, 0⟩ : EditEntry)), (1, ⟨0, 0, 10, 0, 0⟩)]
      : List (ℕ × EditEntry)).length = ([0, 1] : List ℕ).length ∧
    ∀ i, i < ([0, 1] : List ℕ).length →
      (([(0, (⟨0, 0, 10, 0, 0⟩ : EditEntry)), (1, ⟨0, 0, 10, 0, 0⟩)]
        : List (ℕ × EditEntry)).getD i default).1 = ([0, 1] : List ℕ).getD i default :=
  claim_C9_order ⟨120, 48000, []⟩ envW [0, 1] 2 0 1 1 7
    ⟨15, 48000, [(0, 0), (1, 0)]⟩
    [(0, ⟨0, 0, 10, 0, 0⟩), (1, ⟨0, 0, 10, 0, 0⟩)] (by decide) envW_align
